import Mathlib

/-!
Verification of the `dclua` declension engine (`src/dclua/dclua.py`).

A Python model value is one of: `None` (the absent marker), a suffix
string, or a (possibly nested) list of such values.  We embed that
dynamically-typed value space as the inductive type `Node`.  Python
exceptions that the code can raise are made explicit with `Except Exc`;
functions that can only raise one kind of error use `Option`/`Except Unit`.
All definitions are translated clause-by-clause from the source.
-/

namespace Dclua

/-- A Python value stored in a declension model: `None`, a `str`, or a `list`. -/
inductive Node where
  | absent : Node
  | suffix (s : String) : Node
  | branch (children : List Node) : Node

/-- Python exception kinds that the embedded code can raise. -/
inductive Exc where
  | indexError : Exc
  | typeError : Exc
  | valueError : Exc
  | fuelError : Exc
deriving DecidableEq, Repr

/-! ## Python string primitives (code-point semantics, as in CPython) -/

/-- Python `w[:n]` for `n ≥ 0` (clamped). -/
def pyTakeStr (w : String) (n : Nat) : String := String.mk (w.data.take n)

/-- Python `w[-n:]` for a nonnegative `n`: with `n = 0` this is `w[0:] = w`;
otherwise the trailing `min n (len w)` characters. -/
def pyTrailSlice (w : String) (n : Nat) : String :=
  if n = 0 then w else String.mk (w.data.drop (w.data.length - n))

/-- The suffix test `word[-len(s):] == s` used throughout the matcher. -/
def pyTrailEq (word s : String) : Bool := pyTrailSlice word s.length == s

/-- Python `w[:-n]`: with `n = 0` this is `w[:0] = ""`; otherwise the first
`len w - n` characters (empty when `n ≥ len w`). -/
def pyDropLast (w : String) (n : Nat) : String :=
  if n = 0 then "" else String.mk (w.data.take (w.data.length - n))

/-- Python `w[i:]` for an `int` index (negative indices count from the end,
clamped at 0, as in CPython slicing). -/
def pySliceFromInt (w : String) (i : Int) : String :=
  if 0 ≤ i then String.mk (w.data.drop i.toNat)
  else String.mk (w.data.drop (w.data.length - (-i).toNat))

/-- Python `s[:i] + s[i+1:]`: the string with the character at `i` removed
(clamping slices, so `i ≥ len s` returns `s` unchanged). -/
def dropAt (s : String) (i : Nat) : String :=
  String.mk (s.data.take i ++ s.data.drop (i + 1))

/-- Python `el[:index] + l + el[index+1:]`: substitute the single letter `l`
at position `index` (appends `l` when `index ≥ len el`). -/
def substAt (el : String) (index : Nat) (l : Char) : String :=
  String.mk (el.data.take index ++ l :: el.data.drop (index + 1))

/-- If `pat` starts the list, return the remainder after it. -/
def matchPat : List Char → List Char → Option (List Char)
  | [], s => some s
  | _ :: _, [] => none
  | p :: ps, c :: cs => if p = c then matchPat ps cs else none

theorem matchPat_some_length {pat s rem : List Char} :
    matchPat pat s = some rem → rem.length + pat.length = s.length := by
  induction pat generalizing s with
  | nil => intro h; simp [matchPat] at h; simp [h]
  | cons p ps ih =>
    intro h
    cases s with
    | nil => simp [matchPat] at h
    | cons c cs =>
      simp only [matchPat] at h
      split at h
      · have := ih h
        simp only [List.length_cons]
        omega
      · exact absurd h (by simp)

/-- The scanning loop of `replaceAll`.  The `fuel` argument only makes the
recursion structural (every step strictly shortens the string, so a fuel of
`s.length` never runs out); the Python behaviour is the `fuel + 1` clause. -/
def replaceGo (pat rep : List Char) : Nat → List Char → List Char
  | _, [] => []
  | 0, s => s
  | fuel + 1, c :: rest =>
    match pat with
    | [] => c :: rest
    | _ :: _ =>
      match matchPat pat (c :: rest) with
      | some rem => rep ++ replaceGo pat rep fuel rem
      | none => c :: replaceGo pat rep fuel rest

/-- Python `s.replace(old, new)` for a nonempty `old`: replace every
non-overlapping occurrence, scanning left to right.  (The `old = []` case
returns the input unchanged; the orthography table only uses two-character
patterns, so the Python empty-pattern corner case is never exercised.) -/
def replaceAll (pat rep : List Char) (s : List Char) : List Char :=
  replaceGo pat rep s.length s

/-- The orthography replacement table of `Declensor._fitOrthography`
(`йа→я`, `йі→ї`, `йу→ю`, `йе→є`, `ьа→я`, `ьі→і`, `ьу→ю`, `ье→є`). -/
def orthoPairs : List (List Char × List Char) :=
  [(['й', 'а'], ['я']), (['й', 'і'], ['ї']), (['й', 'у'], ['ю']), (['й', 'е'], ['є']),
   (['ь', 'а'], ['я']), (['ь', 'і'], ['і']), (['ь', 'у'], ['ю']), (['ь', 'е'], ['є'])]

/-- `Declensor._fitOrthography`: apply each replacement pair once, in order. -/
def fitOrthography (word : String) : String :=
  String.mk (orthoPairs.foldl (fun w pr => replaceAll pr.1 pr.2 w) word.data)

/-! ## Truthiness and model access -/

/-- Python truthiness of a model value: `None`, `""` and `[]` are falsy. -/
def isFalsy : Node → Bool
  | .absent => true
  | .suffix s => s == ""
  | .branch l => l.isEmpty

/-- Python truthiness (positive form), for `if found:`-style checks. -/
def isTruthy (n : Node) : Bool := !(isFalsy n)

/-- `Declensor._getByCoord`: walk the tree one coordinate at a time.  An
out-of-range index raises `IndexError`, which the source catches and turns
into `None`; a non-list value (or an exhausted vector) is returned as-is. -/
def getByCoord : Node → List Nat → Node
  | .branch l, i :: rest =>
    match l[i]? with
    | some a => getByCoord a rest
    | none => .absent
  | a, _ => a

/-- `Declensor.getZero`: descend index 0 while the value is a list.
`none` models the uncaught `IndexError` on an empty list. -/
def getZero? : Node → Option Node
  | .branch [] => none
  | .branch (a :: _) => getZero? a
  | .suffix s => some (.suffix s)
  | .absent => some .absent

/-- The sort key `len(Declensor.getZero(model))` of `setModel`; `none`
models an exception (empty-list `IndexError`, or `TypeError` from
`len(None)`). -/
def zeroKey? (m : Node) : Option Nat :=
  match getZero? m with
  | some (.suffix s) => some s.length
  | _ => none

/-- The key used when comparing during the sort (only reached when every
key is defined, see `setModel?`). -/
def keyOf (m : Node) : Nat := (zeroKey? m).getD 0

/-- Stable descending insertion: `m` moves ahead only of strictly smaller
keys, exactly the order produced by Python's stable
`sorted(key=..., reverse=True)`. -/
def insertDesc (m : Node) : List Node → List Node
  | [] => [m]
  | a :: rest => if keyOf a < keyOf m then m :: a :: rest else a :: insertDesc m rest

/-- Stable descending sort by `keyOf` (insertion sort; equals Python's
stable sort as a function on lists). -/
def sortDesc (l : List Node) : List Node := l.foldl (fun acc m => insertDesc m acc) []

/-- Evaluate `f` on every element, failing if any evaluation fails (the
exception behaviour of computing every sort key). -/
def mapOption (f : α → Option β) : List α → Option (List β)
  | [] => some []
  | x :: xs =>
    match f x, mapOption f xs with
    | some y, some ys => some (y :: ys)
    | _, _ => none

/-- `Declensor.setModel`: sort the rules by descending zero-suffix length;
`none` models an exception while computing some key. -/
def setModel? (rules : List Node) : Option (List Node) :=
  match mapOption zeroKey? rules with
  | some _ => some (sortDesc rules)
  | none => none

/-! ## Blind suffix search (`_findInRule` / `_findWordInModel`) -/

mutual

/-- The result `_search` produces for one truthy element: a string leaf
yields itself when it is a true trailing match of `word` (such a leaf is
nonempty, the falsy check in `searchList` having passed, so returning it
directly and routing it through the caller's truthiness test agree); a list
is searched recursively; a bare `None` yields nothing. -/
def searchNode (word : String) : Node → Option String
  | .suffix s => if pyTrailEq word s then some s else none
  | .branch l => searchList word l
  | .absent => none

/-- The recursive `_search` of `Declensor._findInRule`: skip falsy elements,
return the first leaf that is a true trailing match of `word`, else recurse
into sublists (a falsy recursive result does not end the loop). -/
def searchList (word : String) : List Node → Option String
  | [] => none
  | el :: rest =>
    if isFalsy el then searchList word rest
    else
      match searchNode word el with
      | some f => if f == "" then searchList word rest else some f
      | none => searchList word rest

end

/-- `Declensor._findInRule`: `_search(rule, word)`.  A `str` rule is
enumerated character by character (Python iterates strings); a `None` rule
raises `TypeError` (`enumerate(None)`), modelled as `.error`. -/
def findInRule (word : String) : Node → Except Unit (Option String)
  | .branch l => .ok (searchList word l)
  | .suffix s => .ok (searchList word (s.data.map fun c => Node.suffix (String.singleton c)))
  | .absent => .error ()

/-- `Declensor._findWordInModel`: try every rule in order, returning the
first truthy hit together with its rule. -/
def findWordInModel (word : String) : List Node → Except Unit (Option (String × Node))
  | [] => .ok none
  | r :: rest =>
    match findInRule word r with
    | .error e => .error e
    | .ok none => findWordInModel word rest
    | .ok (some f) => if f == "" then findWordInModel word rest else .ok (some (f, r))

/-! ## Coordinate lookup (`_findRule`) and rewriting (`_changeProperties`) -/

/-- `Declensor._findRule`: resolve `props` on each rule in order; a falsy
resolution ends the whole search with `None`; a true trailing match is
returned; otherwise the next rule is tried. -/
def findRule (word : String) : List Node → List Nat → Option (String × Node)
  | [], _ => none
  | r :: rest, props =>
    let sfx := getByCoord r props
    if isFalsy sfx then none
    else
      match sfx with
      | .suffix s => if pyTrailEq word s then some (s, r) else findRule word rest props
      | _ => findRule word rest props

/-- `Declensor._changeProperties`: resolve the new suffix; if the old or the
new suffix is falsy return the word unchanged, else replace the trailing
`len(sfx)` characters.  A truthy list resolution makes `str + list` raise
`TypeError`, modelled as `.error`. -/
def changeProperties (word sfx : String) (rule : Node) (props : List Nat) :
    Except Unit String :=
  let newsfx := getByCoord rule props
  if sfx == "" || isFalsy newsfx then .ok word
  else
    match newsfx with
    | .suffix ns => .ok (pyDropLast word sfx.length ++ ns)
    | .branch _ => .error ()
    | .absent => .ok word

/-- Errors that `Declensor.declense` can signal: the raised `ModelError`,
or an uncaught `TypeError` from a degenerate model. -/
inductive PErr where
  | modelError : PErr
  | typeError : PErr
deriving DecidableEq, Repr

/-- `Declensor.declense`: choose the matcher by the truthiness of
`morphology` (`None` and `()` are both falsy), raise `ModelError` when no
rule is found, else rewrite and normalize. -/
def declense (rules : List Node) (word : String) (newmorph : List Nat)
    (morphology : Option (List Nat)) : Except PErr String :=
  let found : Except PErr (Option (String × Node)) :=
    match morphology with
    | none => (findWordInModel word rules).mapError fun _ => PErr.typeError
    | some [] => (findWordInModel word rules).mapError fun _ => PErr.typeError
    | some props => .ok (findRule word rules props)
  match found with
  | .error e => .error e
  | .ok none => .error PErr.modelError
  | .ok (some (sfx, rule)) =>
    match changeProperties word sfx rule newmorph with
    | .error _ => .error PErr.typeError
    | .ok w => .ok (fitOrthography w)

/-! ## Trainer (`DeclenseTrainer._getRootSize` / `analyze`) -/

/-- `_compareTwo`: the length of the common prefix of two words. -/
def compareTwo (w1 w2 : String) : Nat := go w1.data w2.data where
  go : List Char → List Char → Nat
    | a :: as, b :: bs => if a = b then go as bs + 1 else 0
    | _, _ => 0

/-- The comparator loop of `_getRootSize`: a falsy comparator (`None` or
`""`) is replaced by the next word; otherwise it is cut down to the common
prefix with the next word. -/
def rootLoop : Option String → List String → Option String
  | comp, [] => comp
  | comp, w :: ws =>
    match comp with
    | none => rootLoop (some w) ws
    | some c => if c = "" then rootLoop (some w) ws
                else rootLoop (some (pyTakeStr w (compareTwo w c))) ws

/-- `DeclenseTrainer._getRootSize`: `none` models the `TypeError` of
`len(None)` when the comparator was never set. -/
def getRootSize (words : List String) : Option Nat :=
  (rootLoop none words).map String.length

/-- The root-size adjustment pass of `DeclenseTrainer.analyze`: shrink
`rootSize` whenever a form would keep fewer than `minsize` suffix
characters (the running value is used for each next form, and can go
negative, hence `Int` with Python slice semantics). -/
def adjustRootSize (minsize : Int) (words : List String) (rs : Int) : Int :=
  words.foldl
    (fun rs w =>
      let diff := minsize - ((pySliceFromInt w rs).length : Int)
      if 0 < diff then rs - diff else rs)
    rs

/-- The complete root-size computation of `analyze` (common prefix, then
the `minsize` adjustment), on the paradigm's forms in dict order. -/
def analyzeRootSize (words : List String) (minsize : Int) : Option Int :=
  (getRootSize words).map fun rs => adjustRootSize minsize words (rs : Int)

/-! ## Trainer insertion (`_enlargeList` / `_insertInto`) -/

/-- `_enlargeList`: pad with the absent marker until the index exists, then
replace an absent marker at the index by an empty level. -/
def enlargeList (arr : List Node) (i : Nat) : List Node :=
  let padded := arr ++ List.replicate (i + 1 - arr.length) Node.absent
  match padded[i]? with
  | some .absent => padded.set i (Node.branch [])
  | _ => padded

/-- `_insertInto`: put `value` at coordinates `i :: v` of `arr`, enlarging
each level on the way.  `none` models the exception raised (eventually, via
`append`/item assignment on a `str`) when the path runs through an existing
suffix leaf. -/
def insertInto : (v : List Nat) → List Node → Node → Nat → Option (List Node)
  | [], arr, value, i => some ((enlargeList arr i).set i value)
  | j :: rest, arr, value, i =>
    let arr2 := enlargeList arr i
    match arr2[i]? with
    | some (.branch inner) =>
      (insertInto rest inner value j).map fun inner2 => arr2.set i (.branch inner2)
    | _ => none

/-! ## Generalizer (`DeclenseTrainer.generalizeModel`)

`_rulesAreIdentical(a, b, index)` compares two Python values.  When both are
strings it compares them with the character at `index` removed; when both are
`None` the slice `None[:index]` raises `TypeError`; otherwise it zips the two
values (Python's `zip` also iterates strings character by character and raises
`TypeError` on `None`) and requires all pairs to be identical, short-circuiting
on the first `False`. -/

/-- Exception-free `mapM` over `Except Exc` (sequential, error on first). -/
def mapExc (f : α → Except Exc β) : List α → Except Exc (List β)
  | [] => .ok []
  | a :: as =>
    match f a with
    | .error e => .error e
    | .ok b =>
      match mapExc f as with
      | .error e => .error e
      | .ok bs => .ok (b :: bs)

/-- Sequential fold over `Except Exc`. -/
def foldExc (f : σ → α → Except Exc σ) : σ → List α → Except Exc σ
  | s, [] => .ok s
  | s, a :: as =>
    match f s a with
    | .error e => .error e
    | .ok s2 => foldExc f s2 as

/-- `_rulesAreIdentical` where the first value is a single character coming
from zipping a string: compare against a node (recursing into a list zips the
one-character string with it, producing at most one pair). -/
def identCharNode (c : Char) (n : Node) (i : Nat) : Except Exc Bool :=
  match n with
  | .suffix t => .ok (dropAt (String.singleton c) i == dropAt t i)
  | .branch [] => .ok true
  | .branch (z :: _) => identCharNode c z i
  | .absent => .error .typeError

/-- Symmetric variant: a node zipped against a single character. -/
def identNodeChar (n : Node) (c : Char) (i : Nat) : Except Exc Bool :=
  match n with
  | .suffix s => .ok (dropAt s i == dropAt (String.singleton c) i)
  | .branch [] => .ok true
  | .branch (x :: _) => identNodeChar x c i
  | .absent => .error .typeError

/-- Zip a string's characters against a list of nodes (`zip(str, list)`),
requiring all pairs identical. -/
def identStrBranch (cs : List Char) (ys : List Node) (i : Nat) : Except Exc Bool :=
  match cs, ys with
  | [], _ => .ok true
  | _, [] => .ok true
  | c :: cs, y :: ys =>
    match identCharNode c y i with
    | .error e => .error e
    | .ok false => .ok false
    | .ok true => identStrBranch cs ys i

/-- Zip a list of nodes against a string's characters. -/
def identBranchStr (xs : List Node) (cs : List Char) (i : Nat) : Except Exc Bool :=
  match xs, cs with
  | [], _ => .ok true
  | _, [] => .ok true
  | x :: xs, c :: cs =>
    match identNodeChar x c i with
    | .error e => .error e
    | .ok false => .ok false
    | .ok true => identBranchStr xs cs i

mutual

/-- `DeclenseTrainer.generalizeModel._rulesAreIdentical`. -/
def identNodes : Node → Node → Nat → Except Exc Bool
  | .suffix x, .suffix y, i => .ok (dropAt x i == dropAt y i)
  | .suffix x, .branch ys, i => identStrBranch x.data ys i
  | .branch xs, .suffix y, i => identBranchStr xs y.data i
  | .branch xs, .branch ys, i => identBranches xs ys i
  | _, _, _ => .error .typeError

/-- `all(_rulesAreIdentical(x, y, i) for x, y in zip(xs, ys))`. -/
def identBranches : List Node → List Node → Nat → Except Exc Bool
  | [], _, _ => .ok true
  | _, [], _ => .ok true
  | x :: xs, y :: ys, i =>
    match identNodes x y i with
    | .error e => .error e
    | .ok false => .ok false
    | .ok true => identBranches xs ys i

end

/-- `Declensor.getZero` with its exceptions explicit: `IndexError` on an
empty list along the zero path. -/
def getZeroE : Node → Except Exc Node
  | .branch [] => .error .indexError
  | .branch (a :: _) => getZeroE a
  | .suffix s => .ok (.suffix s)
  | .absent => .ok .absent

/-- `Declensor.getZero(rule)[index]`: `IndexError` when the character is out
of range (caught by `_deleteGroup`), `TypeError` when the zero value is
`None` (uncaught). -/
def zeroCharAtE (r : Node) (index : Nat) : Except Exc Char :=
  match getZeroE r with
  | .error e => .error e
  | .ok (.suffix s) =>
    match s.data[index]? with
    | some c => .ok c
    | none => .error .indexError
  | .ok _ => .error .typeError

/-- Outcome of `_deleteGroup`'s loop body for one rule. -/
inductive DgOut where
  | keep : DgOut
  | remove : DgOut
  | skip : DgOut
deriving DecidableEq, Repr

/-- One iteration of `_deleteGroup`'s loop: evaluate
`getZero(rule)[index] not in group or (deleted and not identical(deleted, rule, index))`
left to right; `IndexError` anywhere in the `try` block skips the rule. -/
def dgStep (group : List Char) (index : Nat) (del : Option Node) (r : Node) :
    Except Exc DgOut :=
  match zeroCharAtE r index with
  | .error .indexError => .ok .skip
  | .error e => .error e
  | .ok c =>
    if group.contains c then
      match del with
      | none => .ok .remove
      | some d =>
        if isTruthy d then
          match identNodes d r index with
          | .error .indexError => .ok .skip
          | .error e => .error e
          | .ok true => .ok .remove
          | .ok false => .ok .keep
        else .ok .remove
    else .ok .keep

/-- The loop of `_deleteGroup`, carrying the growing `result`, the removal
`counter` and the last `deleted` rule. -/
def deleteGroupGo (group : List Char) (index : Nat) :
    List Node → Option Node → Except Exc (List Node × Nat × Option Node)
  | [], del => .ok ([], 0, del)
  | r :: rest, del =>
    match dgStep group index del r with
    | .error e => .error e
    | .ok .keep =>
      match deleteGroupGo group index rest del with
      | .error e => .error e
      | .ok (res, c, d) => .ok (r :: res, c, d)
    | .ok .remove =>
      match deleteGroupGo group index rest (some r) with
      | .error e => .error e
      | .ok (res, c, d) => .ok (res, c + 1, d)
    | .ok .skip => deleteGroupGo group index rest del

/-- `DeclenseTrainer.generalizeModel._deleteGroup`. -/
def deleteGroup (array : List Node) (group : List Char) (index : Nat) :
    Except Exc (List Node × Nat × Option Node) :=
  deleteGroupGo group index array none

mutual

/-- `_putRecursively` (value-level): substitute `l` at `index` in every
string leaf and normalize it.  On a string the in-place item assignment
raises `TypeError` (except for `""`, whose loop body never runs); on `None`
`enumerate(None)` raises `TypeError`. -/
def putRecursively (l : Char) (index : Nat) : Node → Except Exc Node
  | .branch els =>
    match putRecList l index els with
    | .error e => .error e
    | .ok els2 => .ok (.branch els2)
  | .suffix s => if s.data.isEmpty then .ok (.suffix s) else .error .typeError
  | .absent => .error .typeError

/-- The element loop of `_putRecursively`. -/
def putRecList (l : Char) (index : Nat) : List Node → Except Exc (List Node)
  | [] => .ok []
  | .suffix s :: rest =>
    match putRecList l index rest with
    | .error e => .error e
    | .ok r => .ok (.suffix (fitOrthography (substAt s index l)) :: r)
  | el :: rest =>
    match putRecursively l index el with
    | .error e => .error e
    | .ok el2 =>
      match putRecList l index rest with
      | .error e => .error e
      | .ok r => .ok (el2 :: r)

end

/-- `_generalize`: one substituted copy of `rule` per letter of the group
(`deepcopy` is value-level identity here). -/
def generalizeRule (rule : Node) (index : Nat) (group : List Char) :
    Except Exc (List Node) :=
  mapExc (fun letter => putRecursively letter index rule) group

/-- `len(Declensor.getZero(rule))`: `TypeError` when the zero value is
`None`. -/
def lenZeroE (r : Node) : Except Exc Nat :=
  match getZeroE r with
  | .error e => .error e
  | .ok (.suffix s) => .ok s.length
  | .ok _ => .error .typeError

/-- One `(group, index)` pass of `generalizeModel`'s double loop.  The float
threshold test `counter < len(group) * threshold` is modelled exactly over
the rational `num/den` (`den > 0`): `counter * den < len(group) * num`. -/
def gmPass (group : List Char) (num den : Nat) (index : Nat)
    (st : List Node × List (List Node)) :
    Except Exc (List Node × List (List Node)) :=
  match deleteGroup st.1 group index with
  | .error e => .error e
  | .ok (reduced, counter, element) =>
    if counter * den < group.length * num then .ok st
    else
      match element with
      | none => .ok st
      | some e =>
        if isTruthy e then
          match generalizeRule e index group with
          | .error er => .error er
          | .ok gs => .ok (reduced, st.2 ++ [gs])
        else .ok st

/-- `DeclenseTrainer.generalizeModel`.  Each generalized group is appended
to the output as a plain Python list of rules, i.e. a `branch`. -/
def generalizeModel (model : List Node) (groups : List (List Char))
    (num den : Nat) : Except Exc (List Node) :=
  match mapExc lenZeroE model with
  | .error e => .error e
  | .ok [] => .error .valueError
  | .ok (n :: ns) =>
    let mx := ns.foldl Nat.max n
    match foldExc
        (fun st group =>
          foldExc (fun st2 index => gmPass group num den index st2) st
            (List.range (mx + 1)))
        (model, ([] : List (List Node))) groups with
    | .error e => .error e
    | .ok st => .ok (st.1 ++ st.2.map Node.branch)

/-! ## Basic lemmas -/

theorem getByCoord_nil (a : Node) : getByCoord a [] = a := by
  cases a <;> rfl

theorem enlargeList_length_gt (arr : List Node) (i : Nat) :
    i < (enlargeList arr i).length := by
  unfold enlargeList
  dsimp only
  split <;> simp [List.length_set, List.length_append, List.length_replicate] <;> omega

/-- Claim C8 helper: after a successful insertion the inserted value sits at
the head coordinate. -/
theorem insertInto_getByCoord :
    ∀ (v : List Nat) (arr : List Node) (value : Node) (i : Nat) (arr2 : List Node),
      insertInto v arr value i = some arr2 →
      getByCoord (.branch arr2) (i :: v) = value := by
  intro v
  induction v with
  | nil =>
    intro arr value i arr2 h
    simp only [insertInto, Option.some.injEq] at h
    subst h
    have hi : i < (enlargeList arr i).length := enlargeList_length_gt arr i
    simp only [getByCoord]
    rw [List.getElem?_set_eq_of_lt _ (by simpa using hi)]
  | cons j rest ih =>
    intro arr value i arr2 h
    simp only [insertInto] at h
    split at h
    case _ inner heq =>
      simp only [Option.map_eq_some'] at h
      obtain ⟨inner2, hrec, hset⟩ := h
      subst hset
      have hi : i < (enlargeList arr i).length := enlargeList_length_gt arr i
      simp only [getByCoord]
      rw [List.getElem?_set_eq_of_lt _ (by simpa using hi)]
      exact ih inner value j inner2 hrec
    all_goals simp at h

theorem string_mk_append (a b : List Char) :
    String.mk a ++ String.mk b = String.mk (a ++ b) := rfl

theorem string_length_eq_data (s : String) : s.length = s.data.length := rfl

theorem eq_empty_iff_data (s : String) : s = "" ↔ s.data = [] := by
  cases s with
  | mk d =>
    show String.mk d = String.mk [] ↔ d = []
    constructor
    · intro h; simpa using congrArg String.data h
    · intro h; rw [h]

/-- A successful trailing-match check reconstructs the word. -/
theorem pyTrailEq_reconstruct (word s : String) (hs : s ≠ "")
    (h : pyTrailEq word s = true) : pyDropLast word s.length ++ s = word := by
  have hdne : s.data ≠ [] := fun hd => hs ((eq_empty_iff_data s).mpr hd)
  have hlen : s.length ≠ 0 := by
    rw [string_length_eq_data]
    intro hc
    exact hdne (List.length_eq_zero.mp hc)
  unfold pyTrailEq pyTrailSlice at h
  rw [if_neg hlen] at h
  have hdata : word.data.drop (word.data.length - s.length) = s.data := by
    have := eq_of_beq h
    cases s with
    | mk sd => simpa using congrArg String.data this
  unfold pyDropLast
  rw [if_neg hlen]
  cases word with
  | mk wd =>
    cases s with
    | mk sd =>
      rw [string_mk_append]
      have htd : wd.take (wd.length - sd.length) ++ sd = wd := by
        conv_rhs => rw [← List.take_append_drop (wd.length - sd.length) wd]
        simp only [List.append_cancel_left_eq]
        simpa [string_length_eq_data] using hdata.symm
      simp only [string_length_eq_data]
      exact congrArg String.mk htd

theorem isFalsy_suffix_ne (s : String) (h : isFalsy (.suffix s) = false) : s ≠ "" := by
  simpa [isFalsy] using h

/-- Characterization of a successful `_findRule` lookup: the returned suffix
is the rule's resolution at the coordinates, a nonempty true trailing match,
and the rule belongs to the set. -/
theorem findRule_eq_some (word : String) (props : List Nat) :
    ∀ rules s r, findRule word rules props = some (s, r) →
      getByCoord r props = .suffix s ∧ pyTrailEq word s = true ∧ s ≠ "" ∧ r ∈ rules := by
  intro rules
  induction rules with
  | nil => intro s r h; simp [findRule] at h
  | cons r0 rest ih =>
    intro s r h
    simp only [findRule] at h
    cases hgc : getByCoord r0 props with
    | absent => rw [hgc] at h; simp [isFalsy] at h
    | branch l =>
      rw [hgc] at h
      by_cases hl : l.isEmpty
      · simp [isFalsy, hl] at h
      · rw [if_neg (by simp [isFalsy, hl])] at h
        obtain ⟨h1, h2, h3, h4⟩ := ih s r h
        exact ⟨h1, h2, h3, List.mem_cons_of_mem _ h4⟩
    | suffix s0 =>
      rw [hgc] at h
      by_cases hs0 : s0 = ""
      · subst hs0; simp [isFalsy] at h
      · rw [if_neg (by simp [isFalsy, hs0])] at h
        have h2 : (if pyTrailEq word s0 = true then some (s0, r0)
            else findRule word rest props) = some (s, r) := h
        by_cases hm : pyTrailEq word s0 = true
        · rw [if_pos hm] at h2
          have hpair := Option.some.inj h2
          have hseq : s0 = s := congrArg Prod.fst hpair
          have hreq : r0 = r := congrArg Prod.snd hpair
          rw [← hseq, ← hreq]
          exact ⟨hgc, hm, hs0, List.mem_cons_self r0 rest⟩
        · rw [if_neg hm] at h2
          obtain ⟨h1, h2, h3, h4⟩ := ih s r h2
          exact ⟨h1, h2, h3, List.mem_cons_of_mem _ h4⟩

/-- The blind `_search` never returns a falsy (empty) string. -/
theorem searchList_some_ne (word : String) :
    ∀ l f, searchList word l = some f → f ≠ "" := by
  intro l
  induction l with
  | nil => intro f h; simp [searchList] at h
  | cons el rest ih =>
    intro f h
    simp only [searchList] at h
    split at h
    · exact ih f h
    · split at h
      case _ f0 heq =>
        split at h
        · exact ih f h
        case isFalse hne =>
          obtain rfl : f0 = f := Option.some.inj h
          simpa using hne
      case _ => exact ih f h

/-- `_findInRule` never reports a falsy (empty) suffix. -/
theorem findInRule_some_ne (word : String) (r : Node) (f : String)
    (h : findInRule word r = .ok (some f)) : f ≠ "" := by
  cases r with
  | branch l =>
    simp only [findInRule, Except.ok.injEq] at h
    exact searchList_some_ne word l f h
  | suffix s =>
    simp only [findInRule, Except.ok.injEq] at h
    exact searchList_some_ne word _ f h
  | absent => simp [findInRule] at h

/-- Characterization of a successful blind search over a rule set. -/
theorem findWordInModel_eq_some (word : String) :
    ∀ rules s r, findWordInModel word rules = .ok (some (s, r)) →
      findInRule word r = .ok (some s) ∧ s ≠ "" ∧ r ∈ rules := by
  intro rules
  induction rules with
  | nil => intro s r h; simp [findWordInModel] at h
  | cons r0 rest ih =>
    intro s r h
    simp only [findWordInModel] at h
    split at h
    · simp at h
    case _ heq => obtain ⟨h1, h2, h3⟩ := ih s r h; exact ⟨h1, h2, by simp [h3]⟩
    case _ f heq =>
      split at h
      · obtain ⟨h1, h2, h3⟩ := ih s r h; exact ⟨h1, h2, by simp [h3]⟩
      case isFalse hne =>
        obtain ⟨hf, hr⟩ : f = s ∧ r0 = r := by
          have := Except.ok.inj h
          have := Option.some.inj this
          exact ⟨congrArg Prod.fst this, congrArg Prod.snd this⟩
        subst hf; subst hr
        exact ⟨heq, by simpa using hne, by simp⟩

/-- A model that `_findRule`'s loop passes over without deciding: its
resolution is truthy but not a trailing match of the word. -/
def continuesPast (word : String) (m : Node) (props : List Nat) : Bool :=
  match getByCoord m props with
  | .suffix s => !(s == "") && !(pyTrailEq word s)
  | .branch l => !l.isEmpty
  | .absent => false

/-- `_findRule` fails as soon as any reached model resolves to a falsy
value, regardless of its position in the set. -/
theorem findRule_skip (word : String) (props : List Nat) :
    ∀ (rules1 : List Node) (r : Node) (rules2 : List Node),
      (∀ m ∈ rules1, continuesPast word m props = true) →
      isFalsy (getByCoord r props) = true →
      findRule word (rules1 ++ r :: rules2) props = none := by
  intro rules1
  induction rules1 with
  | nil =>
    intro r rules2 _ hf
    simp only [List.nil_append, findRule]
    rw [if_pos hf]
  | cons m rs ih =>
    intro r rules2 hall hf
    have hm := hall m (by simp)
    have hrest : ∀ x ∈ rs, continuesPast word x props = true :=
      fun x hx => hall x (by simp [hx])
    simp only [List.cons_append, findRule]
    unfold continuesPast at hm
    cases hgc : getByCoord m props with
    | absent => rw [hgc] at hm; simp at hm
    | suffix s =>
      rw [hgc] at hm
      simp only [Bool.and_eq_true, Bool.not_eq_true'] at hm
      rw [if_neg (by simp [isFalsy, hm.1])]
      show (if pyTrailEq word s = true then some (s, m)
          else findRule word (rs ++ r :: rules2) props) = none
      rw [if_neg (by simp [hm.2])]
      exact ih r rules2 hrest hf
    | branch l =>
      rw [hgc] at hm
      simp only [Bool.not_eq_true'] at hm
      rw [if_neg (by simp [isFalsy, hm])]
      show findRule word (rs ++ r :: rules2) props = none
      exact ih r rules2 hrest hf

/-! ## Claim C1 -/

/-- Claim C1 (amended): `findByCoordinates` resolves the vector against each
model in rule-set order; it returns a resolved suffix that is a nonempty
true trailing match on the word, but only models whose resolution is truthy
and fails to match are skipped — if resolution yields a falsy value (absent,
or the empty suffix/subtree) for ANY model reached, not only the first, the
whole lookup fails with not-found immediately, with no fallback to a later
model that does define the coordinate. -/
theorem C1_no_fallback (word : String) (props : List Nat) :
    (∀ (rules1 : List Node) (r : Node) (rules2 : List Node),
        (∀ m ∈ rules1, continuesPast word m props = true) →
        isFalsy (getByCoord r props) = true →
        findRule word (rules1 ++ r :: rules2) props = none) ∧
    (∀ rules s r, findRule word rules props = some (s, r) →
        getByCoord r props = .suffix s ∧ pyTrailEq word s = true ∧ s ≠ "" ∧ r ∈ rules) :=
  ⟨findRule_skip word props, findRule_eq_some word props⟩

/-- Witness for C1: the lookup fails when the second model of three lacks
the coordinate, and a successful lookup is characterized. -/
theorem C1_no_fallback_witness :
    findRule "ab"
      [.branch [.suffix "zzz", .suffix "q"],
       .branch [.suffix "yy", .absent],
       .branch [.suffix "b", .suffix "b"]] [1] = none ∧
    (getByCoord (.branch [.suffix "b", .suffix "b"]) [1] = .suffix "b" ∧
      pyTrailEq "ab" "b" = true ∧ "b" ≠ "" ∧
      Node.branch [.suffix "b", .suffix "b"] ∈ [Node.branch [.suffix "b", .suffix "b"]]) := by
  constructor
  · exact (C1_no_fallback "ab" [1]).1
      [.branch [.suffix "zzz", .suffix "q"]]
      (.branch [.suffix "yy", .absent])
      [.branch [.suffix "b", .suffix "b"]]
      (by intro m hm
          simp only [List.mem_singleton] at hm
          subst hm
          rfl)
      rfl
  · exact (C1_no_fallback "ab" [1]).2
      [.branch [.suffix "b", .suffix "b"]] "b" (.branch [.suffix "b", .suffix "b"]) rfl

/-- Counterexample for C1 as stated: with the set ordered exactly as
`setRules` orders it, the first model resolves a non-absent suffix that does
not match, the second model resolves absent, and the third model resolves a
true trailing match; the claim then requires the third model's suffix to be
returned, but the code returns not-found. -/
theorem C1_counterexample :
    setModel?
      [.branch [.suffix "zzz", .suffix "q"],
       .branch [.suffix "yy", .absent],
       .branch [.suffix "b", .suffix "b"]] =
      some
        [.branch [.suffix "zzz", .suffix "q"],
         .branch [.suffix "yy", .absent],
         .branch [.suffix "b", .suffix "b"]] ∧
    getByCoord (.branch [.suffix "zzz", .suffix "q"]) [1] = .suffix "q" ∧
    pyTrailEq "ab" "q" = false ∧
    getByCoord (.branch [.suffix "yy", .absent]) [1] = .absent ∧
    getByCoord (.branch [.suffix "b", .suffix "b"]) [1] = .suffix "b" ∧
    pyTrailEq "ab" "b" = true ∧
    findRule "ab"
      [.branch [.suffix "zzz", .suffix "q"],
       .branch [.suffix "yy", .absent],
       .branch [.suffix "b", .suffix "b"]] [1] = none :=
  ⟨rfl, rfl, rfl, rfl, rfl, rfl, rfl⟩

/-! ## Replacement behaviour (`_changeProperties` within `declense`) -/

/-- Behaviour of `_changeProperties` for a nonempty matched suffix: a
truthy replacement suffix rewrites the tail, while an absent or empty
replacement leaves the word unchanged. -/
theorem changeProperties_cases (word sfx : String) (rule : Node)
    (props : List Nat) (hs : sfx ≠ "") :
    (∀ ns, getByCoord rule props = .suffix ns → ns ≠ "" →
      changeProperties word sfx rule props = .ok (pyDropLast word sfx.length ++ ns)) ∧
    ((getByCoord rule props = .absent ∨ getByCoord rule props = .suffix "") →
      changeProperties word sfx rule props = .ok word) := by
  constructor
  · intro ns hgc hns
    unfold changeProperties
    rw [hgc]
    rw [if_neg (by simp [isFalsy, hs, hns])]
  · intro hgc
    unfold changeProperties
    rcases hgc with hgc | hgc <;> rw [hgc] <;> simp [isFalsy, hs]

/-- `declense` with a truthy known morphology routes through `_findRule`
and `_changeProperties`. -/
theorem declense_coord (rules : List Node) (word : String)
    (newmorph : List Nat) (p : Nat) (ps : List Nat) (s : String) (r : Node)
    (h : findRule word rules (p :: ps) = some (s, r)) :
    declense rules word newmorph (some (p :: ps)) =
      match changeProperties word s r newmorph with
      | .error _ => .error PErr.typeError
      | .ok w => .ok (fitOrthography w) := by
  show (match (Except.ok (findRule word rules (p :: ps)) :
      Except PErr (Option (String × Node))) with
    | .error e => (.error e : Except PErr String)
    | .ok none => .error PErr.modelError
    | .ok (some (sfx, rule)) =>
      match changeProperties word sfx rule newmorph with
      | .error _ => .error PErr.typeError
      | .ok w => .ok (fitOrthography w)) = _
  rw [h]

/-- `declense` with no (or a falsy) known morphology routes through the
blind search and `_changeProperties`. -/
theorem declense_blind (rules : List Node) (word : String)
    (newmorph : List Nat) (s : String) (r : Node)
    (h : findWordInModel word rules = .ok (some (s, r))) :
    declense rules word newmorph none =
      match changeProperties word s r newmorph with
      | .error _ => .error PErr.typeError
      | .ok w => .ok (fitOrthography w) := by
  show (match (findWordInModel word rules).mapError (fun _ => PErr.typeError) with
    | .error e => (.error e : Except PErr String)
    | .ok none => .error PErr.modelError
    | .ok (some (sfx, rule)) =>
      match changeProperties word sfx rule newmorph with
      | .error _ => .error PErr.typeError
      | .ok w => .ok (fitOrthography w)) = _
  rw [h]
  rfl

/-! ## Claim C2 -/

/-- Claim C2 (amended): when the matcher step of `declense` succeeds with
matched suffix `s` and model `r`, the result is the word with its trailing
`len s` characters replaced by the replacement suffix and then normalized —
but only when the replacement suffix is a nonempty string; when the
replacement suffix is absent OR the empty string, the (normalized) word is
returned unchanged: the falsy test `not newsuffix` treats the empty string
exactly like the absent marker, so an empty replacement does not strip the
old suffix. -/
theorem C2_empty_replacement (word : String) (newmorph : List Nat) :
    (∀ (rules : List Node) (p : Nat) (ps : List Nat) (s : String) (r : Node),
      findRule word rules (p :: ps) = some (s, r) →
      (∀ ns, getByCoord r newmorph = .suffix ns → ns ≠ "" →
        declense rules word newmorph (some (p :: ps)) =
          .ok (fitOrthography (pyDropLast word s.length ++ ns))) ∧
      ((getByCoord r newmorph = .absent ∨ getByCoord r newmorph = .suffix "") →
        declense rules word newmorph (some (p :: ps)) = .ok (fitOrthography word))) ∧
    (∀ (rules : List Node) (s : String) (r : Node),
      findWordInModel word rules = .ok (some (s, r)) →
      (∀ ns, getByCoord r newmorph = .suffix ns → ns ≠ "" →
        declense rules word newmorph none =
          .ok (fitOrthography (pyDropLast word s.length ++ ns))) ∧
      ((getByCoord r newmorph = .absent ∨ getByCoord r newmorph = .suffix "") →
        declense rules word newmorph none = .ok (fitOrthography word))) := by
  constructor
  · intro rules p ps s r h
    have hs : s ≠ "" := (findRule_eq_some word (p :: ps) rules s r h).2.2.1
    have hcp := changeProperties_cases word s r newmorph hs
    constructor
    · intro ns hgc hns
      rw [declense_coord rules word newmorph p ps s r h, hcp.1 ns hgc hns]
    · intro hgc
      rw [declense_coord rules word newmorph p ps s r h, hcp.2 hgc]
  · intro rules s r h
    have hs : s ≠ "" := (findWordInModel_eq_some word rules s r h).2.1
    have hcp := changeProperties_cases word s r newmorph hs
    constructor
    · intro ns hgc hns
      rw [declense_blind rules word newmorph s r h, hcp.1 ns hgc hns]
    · intro hgc
      rw [declense_blind rules word newmorph s r h, hcp.2 hgc]

/-- Witness for C2: a nonempty replacement rewrites the tail, an empty
replacement leaves the word unchanged. -/
theorem C2_empty_replacement_witness :
    declense [.branch [.suffix "b", .suffix "cc"]] "ab" [1] (some [0]) =
      .ok "acc" ∧
    declense [.branch [.suffix "b", .suffix ""]] "ab" [1] (some [0]) =
      .ok "ab" := by
  constructor
  · have := ((C2_empty_replacement "ab" [1]).1
      [.branch [.suffix "b", .suffix "cc"]] 0 [] "b"
      (.branch [.suffix "b", .suffix "cc"]) rfl).1 "cc" rfl (by decide)
    simpa using this
  · have := ((C2_empty_replacement "ab" [1]).1
      [.branch [.suffix "b", .suffix ""]] 0 [] "b"
      (.branch [.suffix "b", .suffix ""]) rfl).2 (Or.inr rfl)
    simpa using this

/-- Counterexample for C2 as stated: the matcher succeeds, the replacement
suffix resolved at the new coordinates is the (valid, non-absent) empty
string, yet the word is returned unchanged instead of losing its trailing
matched suffix. -/
theorem C2_counterexample :
    findRule "ab" [.branch [.suffix "b", .suffix ""]] [0] =
      some ("b", .branch [.suffix "b", .suffix ""]) ∧
    getByCoord (.branch [.suffix "b", .suffix ""]) [1] = .suffix "" ∧
    declense [.branch [.suffix "b", .suffix ""]] "ab" [1] (some [0]) = .ok "ab" ∧
    fitOrthography (pyDropLast "ab" 1 ++ "") = "a" ∧ ("ab" : String) ≠ "a" :=
  ⟨rfl, rfl, rfl, rfl, by decide⟩

/-! ## Claim C7 -/

/-- Claim C7 (amended): when the matcher finds a suffix at the known
coordinates, declensing to those same coordinates returns the word mapped
through the Orthography Normalizer — so the word itself is returned exactly
when the normalizer leaves it fixed, which the final normalization pass of
`declense` applies unconditionally. -/
theorem C7_identity (rules : List Node) (word : String) (p : Nat)
    (ps : List Nat) (s : String) (r : Node)
    (h : findRule word rules (p :: ps) = some (s, r)) :
    declense rules word (p :: ps) (some (p :: ps)) = .ok (fitOrthography word) := by
  obtain ⟨hgc, hm, hs, _⟩ := findRule_eq_some word (p :: ps) rules s r h
  rw [declense_coord rules word (p :: ps) p ps s r h]
  rw [(changeProperties_cases word s r (p :: ps) hs).1 s hgc hs]
  rw [pyTrailEq_reconstruct word s hs hm]

/-- Witness for C7: a matched word declensed to its own coordinates comes
back unchanged (its normalization being itself). -/
theorem C7_identity_witness :
    declense [.branch [.suffix "b"]] "ab" [0] (some [0]) = .ok "ab" ∧
    fitOrthography "ab" = "ab" := by
  constructor
  · have := C7_identity [.branch [.suffix "b"]] "ab" 0 [] "b" (.branch [.suffix "b"]) rfl
    simpa using this
  · rfl

/-- Counterexample for C7 as stated: the matcher finds the non-absent suffix
`а` for `ьа` at the known coordinates, yet declensing to those same
coordinates rewrites the word to `я` — the unconditional orthography pass
changes it. -/
theorem C7_counterexample :
    findRule "ьа" [.branch [.suffix "а"]] [0] = some ("а", .branch [.suffix "а"]) ∧
    declense [.branch [.suffix "а"]] "ьа" [0] (some [0]) = .ok "я" ∧
    ("я" : String) ≠ "ьа" :=
  ⟨rfl, rfl, by decide⟩

/-! ## Claim C3 -/

/-- Claim C3 (amended): `_getByCoord` is total — for every model value and
vector it returns a value and never lets an exception escape — and: an index
exceeding the current level's length yields absent; but a non-tree leaf met
before the vector is exhausted is returned as-is (a suffix leaf yields that
suffix, an absent leaf yields absent), and an exhausted vector returns the
current subtree; an in-range index recurses into the child. -/
theorem C3_resolve_total (l : List Node) (i : Nat) (rest : List Nat)
    (s : String) (a : Node) :
    (l.length ≤ i → getByCoord (.branch l) (i :: rest) = .absent) ∧
    (∀ h : i < l.length, getByCoord (.branch l) (i :: rest) = getByCoord l[i] rest) ∧
    (getByCoord (.suffix s) (i :: rest) = .suffix s) ∧
    (getByCoord .absent (i :: rest) = .absent) ∧
    (getByCoord a [] = a) := by
  refine ⟨?_, ?_, rfl, rfl, getByCoord_nil a⟩
  · intro hle
    simp only [getByCoord]
    rw [List.getElem?_eq_none hle]
  · intro hlt
    simp only [getByCoord]
    rw [List.getElem?_eq_getElem hlt]

/-- Witness for C3: out-of-range lookup yields absent; in-range lookup
recurses. -/
theorem C3_resolve_total_witness :
    getByCoord (.branch [.suffix "ab"]) [1] = .absent ∧
    getByCoord (.branch [.suffix "ab", .suffix "c"]) [1, 0] = .suffix "c" := by
  constructor
  · exact (C3_resolve_total [.suffix "ab"] 1 [] "x" .absent).1 (by decide)
  · have := (C3_resolve_total [.suffix "ab", .suffix "c"] 1 [0] "x" .absent).2.1
      (by decide)
    simpa using this

/-- Counterexample for C3 as stated: a non-tree leaf reached before the
vector is exhausted is returned itself, not the absent marker. -/
theorem C3_counterexample :
    getByCoord (.branch [.suffix "ab"]) [0, 3] = .suffix "ab" ∧
    Node.suffix "ab" ≠ Node.absent := by
  exact ⟨rfl, by simp⟩

/-! ## Claim C8 -/

/-- Claim C8: resolving `i :: v` immediately after the trainer's insertion
of `value` at `i :: v` (padding with the absent marker, creating
intermediate levels) returns exactly that value. -/
theorem C8_insert_resolve (v : List Nat) (arr : List Node) (value : Node)
    (i : Nat) (arr2 : List Node) (h : insertInto v arr value i = some arr2) :
    getByCoord (.branch arr2) (i :: v) = value :=
  insertInto_getByCoord v arr value i arr2 h

/-- Witness for C8 at the docstring's own example
(`_insertInto([], "!", 0, 0, 1)` then resolving `(0,0,1)`). -/
theorem C8_insert_resolve_witness :
    insertInto [0, 1] [] (.suffix "!") 0 =
      some [.branch [.branch [.absent, .suffix "!"]]] ∧
    getByCoord (.branch [.branch [.branch [.absent, .suffix "!"]]]) [0, 0, 1] =
      .suffix "!" := by
  refine ⟨rfl, C8_insert_resolve [0, 1] [] (.suffix "!") 0 _ rfl⟩

/-! ## Claim C10 -/

mutual

/-- All leaves of a model value are the empty string or the absent marker. -/
def emptyishLeaves : Node → Bool
  | .absent => true
  | .suffix s => s == ""
  | .branch l => emptyishList l

/-- List form of `emptyishLeaves`. -/
def emptyishList : List Node → Bool
  | [] => true
  | x :: xs => emptyishLeaves x && emptyishList xs

end

theorem node_sizeOf_pos (n : Node) : 1 ≤ sizeOf n := by
  cases n <;> simp_arith

theorem list_sizeOf_pos (l : List Node) : 1 ≤ sizeOf l := by
  cases l <;> simp_arith

/-- `_search` finds nothing in a level whose leaves are all falsy. -/
theorem searchList_emptyish (word : String) :
    ∀ (n : Nat) (l : List Node), sizeOf l ≤ n → emptyishList l = true →
      searchList word l = none := by
  intro n
  induction n with
  | zero =>
    intro l hsz
    have := list_sizeOf_pos l
    omega
  | succ n ih =>
    intro l hsz he
    cases l with
    | nil => rfl
    | cons el rest =>
      simp only [emptyishList, Bool.and_eq_true] at he
      obtain ⟨he1, he2⟩ := he
      have hposel := node_sizeOf_pos el
      have hposrest := list_sizeOf_pos rest
      have hcons : sizeOf (el :: rest) = 1 + sizeOf el + sizeOf rest := by
        simp_arith
      have hszrest : sizeOf rest ≤ n := by omega
      simp only [searchList]
      by_cases hf : isFalsy el = true
      · rw [if_pos hf]
        exact ih rest hszrest he2
      · rw [if_neg hf]
        cases el with
        | absent => simp [isFalsy] at hf
        | suffix s =>
          exact absurd (show isFalsy (Node.suffix s) = true from he1) hf
        | branch l2 =>
          have hszl2 : sizeOf l2 ≤ n := by
            have : sizeOf (Node.branch l2) = 1 + sizeOf l2 := by simp_arith
            omega
          have h2 : searchNode word (Node.branch l2) = none := by
            show searchList word l2 = none
            exact ih l2 hszl2 he1
          rw [h2]
          exact ih rest hszrest he2

/-- Claim C10: the blind search skips empty-string leaves exactly as it
skips absent leaves — it never returns the empty string as the matched
suffix, and a model whose only defined leaves are empty strings can never be
matched by blind search (a bare absent model aborts it with `TypeError`
instead of matching). -/
theorem C10_blind_skips_empty :
    (∀ (word : String) (rules : List Node) (s : String) (r : Node),
        findWordInModel word rules = .ok (some (s, r)) → s ≠ "") ∧
    (∀ (word : String) (rule : Node), emptyishLeaves rule = true →
        findInRule word rule = .error () ∨ findInRule word rule = .ok none) := by
  constructor
  · intro word rules s r h
    exact (findWordInModel_eq_some word rules s r h).2.1
  · intro word rule he
    cases rule with
    | absent => left; rfl
    | suffix s =>
      right
      have hs : s = "" := eq_of_beq he
      subst hs
      rfl
    | branch l =>
      right
      have h2 : searchList word l = none :=
        searchList_emptyish word (sizeOf l) l le_rfl he
      simpa [findInRule] using h2

/-- Witness for C10: a concrete blind match is nonempty, and a concrete
all-empty model is unmatched. -/
theorem C10_blind_skips_empty_witness :
    ("b" : String) ≠ "" ∧
    (findInRule "ab" (.branch [.suffix "", .absent, .branch [.suffix ""]]) = .error () ∨
      findInRule "ab" (.branch [.suffix "", .absent, .branch [.suffix ""]]) = .ok none) := by
  constructor
  · exact C10_blind_skips_empty.1 "ab" [.branch [.suffix "b"]] "b"
      (.branch [.suffix "b"]) rfl
  · exact C10_blind_skips_empty.2 "ab"
      (.branch [.suffix "", .absent, .branch [.suffix ""]]) rfl

/-! ## Claim C4 -/

theorem insertDesc_mem (m : Node) :
    ∀ l x, x ∈ insertDesc m l → x = m ∨ x ∈ l := by
  intro l
  induction l with
  | nil => intro x hx; simpa [insertDesc] using hx
  | cons a rest ih =>
    intro x hx
    by_cases hlt : keyOf a < keyOf m
    · simp only [insertDesc, if_pos hlt] at hx
      rcases List.mem_cons.mp hx with hx | hx
      · exact Or.inl hx
      · exact Or.inr hx
    · simp only [insertDesc, if_neg hlt] at hx
      rcases List.mem_cons.mp hx with hx | hx
      · exact Or.inr (by simp [hx])
      · rcases ih x hx with hx | hx
        · exact Or.inl hx
        · exact Or.inr (List.mem_cons_of_mem _ hx)

theorem insertDesc_pairwise (m : Node) :
    ∀ l, List.Pairwise (fun a b => keyOf b ≤ keyOf a) l →
      List.Pairwise (fun a b => keyOf b ≤ keyOf a) (insertDesc m l) := by
  intro l
  induction l with
  | nil => intro _; simp [insertDesc]
  | cons a rest ih =>
    intro hp
    rw [List.pairwise_cons] at hp
    obtain ⟨ha, hrest⟩ := hp
    simp only [insertDesc]
    split
    case isTrue hlt =>
      rw [List.pairwise_cons]
      refine ⟨?_, List.pairwise_cons.mpr ⟨ha, hrest⟩⟩
      intro x hx
      rcases List.mem_cons.mp hx with hx | hx
      · subst hx; omega
      · have := ha x hx; omega
    case isFalse hge =>
      rw [List.pairwise_cons]
      constructor
      · intro x hx
        rcases insertDesc_mem m rest x hx with hx | hx
        · subst hx; omega
        · exact ha x hx
      · exact ih hrest

theorem sortDesc_pairwise_aux :
    ∀ (l acc : List Node), List.Pairwise (fun a b => keyOf b ≤ keyOf a) acc →
      List.Pairwise (fun a b => keyOf b ≤ keyOf a)
        (l.foldl (fun acc m => insertDesc m acc) acc) := by
  intro l
  induction l with
  | nil => intro acc h; simpa using h
  | cons m rest ih =>
    intro acc h
    simp only [List.foldl_cons]
    exact ih (insertDesc m acc) (insertDesc_pairwise m acc h)

/-- Claim C4: after every `setModel`/`setRules` call that completes, the
stored rule set is pairwise sorted by descending zero-suffix length, and the
blind search tries models in exactly that order: for zero-suffix lengths 3
and 5, either input order sorts to the length-5 model first, and a suffix
found in the length-5 model is what `findBySuffix` reports. -/
theorem C4_sorted_rules :
    (∀ (rules sorted2 : List Node), setModel? rules = some sorted2 →
      List.Pairwise (fun a b => keyOf b ≤ keyOf a) sorted2) ∧
    (∀ m3 m5 : Node, zeroKey? m3 = some 3 → zeroKey? m5 = some 5 →
      setModel? [m3, m5] = some [m5, m3] ∧
      setModel? [m5, m3] = some [m5, m3] ∧
      (∀ (word s : String), findInRule word m5 = .ok (some s) →
        findWordInModel word [m5, m3] = .ok (some (s, m5)))) := by
  constructor
  · intro rules sorted2 h
    unfold setModel? at h
    split at h
    · obtain rfl : sortDesc rules = sorted2 := Option.some.inj h
      exact sortDesc_pairwise_aux rules [] (by simp)
    · simp at h
  · intro m3 m5 h3 h5
    have hk3 : keyOf m3 = 3 := by simp [keyOf, h3]
    have hk5 : keyOf m5 = 5 := by simp [keyOf, h5]
    refine ⟨?_, ?_, ?_⟩
    · unfold setModel?
      rw [show mapOption zeroKey? [m3, m5] = some [3, 5] by
        simp [mapOption, h3, h5]]
      simp [sortDesc, insertDesc, hk3, hk5]
    · unfold setModel?
      rw [show mapOption zeroKey? [m5, m3] = some [5, 3] by
        simp [mapOption, h3, h5]]
      simp [sortDesc, insertDesc, hk3, hk5]
    · intro word s hf
      have hs : s ≠ "" := findInRule_some_ne word m5 s hf
      simp only [findWordInModel]
      rw [hf]
      show (if (s == "") = true then findWordInModel word [m3]
          else .ok (some (s, m5))) = .ok (some (s, m5))
      rw [if_neg (by simpa using hs)]

/-- Witness for C4 on concrete three- and five-character zero suffixes. -/
theorem C4_sorted_rules_witness :
    List.Pairwise (fun a b => keyOf b ≤ keyOf a)
      [Node.branch [.suffix "works"], Node.branch [.suffix "abc"]] ∧
    setModel? [.branch [.suffix "abc"], .branch [.suffix "works"]] =
      some [.branch [.suffix "works"], .branch [.suffix "abc"]] ∧
    findWordInModel "networks" [.branch [.suffix "works"], .branch [.suffix "abc"]] =
      .ok (some ("works", .branch [.suffix "works"])) := by
  refine ⟨?_, ?_, ?_⟩
  · exact C4_sorted_rules.1 [.branch [.suffix "abc"], .branch [.suffix "works"]]
      [.branch [.suffix "works"], .branch [.suffix "abc"]] rfl
  · exact (C4_sorted_rules.2 (.branch [.suffix "abc"]) (.branch [.suffix "works"])
      rfl rfl).1
  · exact (C4_sorted_rules.2 (.branch [.suffix "abc"]) (.branch [.suffix "works"])
      rfl rfl).2.2 "networks" "works" rfl

/-! ## Claim C5 -/

/-- Claim C5 (amended): on the paradigm кота/коти with minsize 2, the
common-prefix pass alone yields root size 3 (shared root кот), but the
downward adjustment pass of `analyze` then lowers it to 2 so that every
form keeps at least `minsize = 2` suffix characters; the complete root-size
computation therefore returns 2, not 3. -/
theorem C5_root_size :
    getRootSize ["кота", "коти"] = some 3 ∧
    analyzeRootSize ["кота", "коти"] 2 = some 2 ∧
    (pySliceFromInt "кота" 2).length = 2 ∧
    (pySliceFromInt "коти" 2).length = 2 :=
  ⟨rfl, rfl, rfl, rfl⟩

/-- Counterexample for C5 as stated: the computation (with the adjustment
pass the claim itself describes) returns 2, not 3 — and root size 3 would
leave the form кота only 1 suffix character, violating the minsize floor
the claim says is respected. -/
theorem C5_counterexample :
    analyzeRootSize ["кота", "коти"] 2 = some 2 ∧
    (2 : Int) ≠ 3 ∧
    (pySliceFromInt "кота" 3).length < 2 :=
  ⟨rfl, by decide, by decide⟩

/-! ## Claim C6 -/

/-- A rule "matches the group at the position": its zero-suffix character at
`index` evaluates cleanly and belongs to the group. -/
def matchAt (r : Node) (index : Nat) (group : List Char) : Bool :=
  match zeroCharAtE r index with
  | .ok c => group.contains c
  | .error _ => false

/-- A rule `_deleteGroup` keeps unconditionally: its zero-suffix character
evaluates cleanly and lies outside the group. -/
def keepAt (r : Node) (index : Nat) (group : List Char) : Bool :=
  match zeroCharAtE r index with
  | .ok c => !(group.contains c)
  | .error _ => false

theorem matchAt_isTruthy (r : Node) (index : Nat) (group : List Char)
    (h : matchAt r index group = true) : isTruthy r = true := by
  cases r with
  | absent => simp [matchAt, zeroCharAtE, getZeroE] at h
  | suffix s =>
    cases hg : s.data[index]? with
    | none =>
      have h2 : (match (match s.data[index]? with
          | some c => (Except.ok c : Except Exc Char)
          | none => .error .indexError) with
        | .ok c => group.contains c
        | .error _ => false) = true := h
      rw [hg] at h2
      simp at h2
    | some c =>
      have hne : s.data ≠ [] := by
        intro hd
        rw [hd] at hg
        simp at hg
      have : s ≠ "" := fun hc => hne ((eq_empty_iff_data s).mp hc)
      simp [isTruthy, isFalsy, this]
  | branch l =>
    cases l with
    | nil => simp [matchAt, zeroCharAtE, getZeroE] at h
    | cons a rest => simp [isTruthy, isFalsy]

theorem dgStep_of_skip {r : Node} {index : Nat} (group : List Char)
    (del : Option Node) (h : zeroCharAtE r index = .error .indexError) :
    dgStep group index del r = .ok .skip := by
  unfold dgStep
  rw [h]

theorem dgStep_of_keep {r : Node} {index : Nat} {c : Char} (group : List Char)
    (del : Option Node) (h : zeroCharAtE r index = .ok c)
    (hc : group.contains c = false) :
    dgStep group index del r = .ok .keep := by
  unfold dgStep
  rw [h]
  show (if group.contains c = true then
      (match del with
        | none => (Except.ok DgOut.remove : Except Exc DgOut)
        | some d =>
          if isTruthy d = true then
            match identNodes d r index with
            | .error .indexError => .ok .skip
            | .error e => .error e
            | .ok true => .ok .remove
            | .ok false => .ok .keep
          else .ok .remove)
    else .ok .keep) = _
  rw [if_neg (by rw [hc]; simp)]

theorem dgStep_of_remove_none {r : Node} {index : Nat} {c : Char}
    (group : List Char) (h : zeroCharAtE r index = .ok c)
    (hc : group.contains c = true) :
    dgStep group index none r = .ok .remove := by
  unfold dgStep
  rw [h]
  show (if group.contains c = true then
      (match (none : Option Node) with
        | none => (Except.ok DgOut.remove : Except Exc DgOut)
        | some d =>
          if isTruthy d = true then
            match identNodes d r index with
            | .error .indexError => .ok .skip
            | .error e => .error e
            | .ok true => .ok .remove
            | .ok false => .ok .keep
          else .ok .remove)
    else .ok .keep) = _
  rw [if_pos hc]

theorem dgStep_of_remove_some {r d : Node} {index : Nat} {c : Char}
    (group : List Char) (h : zeroCharAtE r index = .ok c)
    (hc : group.contains c = true) (hd : isTruthy d = true)
    (hid : identNodes d r index = .ok true) :
    dgStep group index (some d) r = .ok .remove := by
  unfold dgStep
  rw [h]
  show (if group.contains c = true then
      (match (some d : Option Node) with
        | none => (Except.ok DgOut.remove : Except Exc DgOut)
        | some d =>
          if isTruthy d = true then
            match identNodes d r index with
            | .error .indexError => .ok .skip
            | .error e => .error e
            | .ok true => .ok .remove
            | .ok false => .ok .keep
          else .ok .remove)
    else .ok .keep) = _
  rw [if_pos hc]
  show (if isTruthy d = true then
      (match identNodes d r index with
        | .error .indexError => (Except.ok DgOut.skip : Except Exc DgOut)
        | .error e => .error e
        | .ok true => .ok .remove
        | .ok false => .ok .keep)
    else .ok .remove) = .ok .remove
  rw [if_pos hd, hid]

theorem optElim_getLast_cons (r : Node) (l : List Node) (del : Option Node) :
    (((r :: l).getLast?).elim del some : Option Node) =
      (l.getLast?).elim (some r) some := by
  cases l with
  | nil => rfl
  | cons x xs =>
    rw [List.getLast?_cons_cons]
    cases hg : (x :: xs).getLast? with
    | none =>
      exact absurd hg (by simp [List.getLast?_cons])
    | some y => rfl

/-- The `_deleteGroup` loop, characterized when all matching rules are
pairwise identical in the source's sense. -/
theorem deleteGroupGo_spec (group : List Char) (index : Nat) :
    ∀ (arr : List Node) (del : Option Node),
      (∀ r ∈ arr, ∀ q ∈ arr, matchAt r index group = true →
        matchAt q index group = true → identNodes r q index = .ok true) →
      (∀ d, del = some d → isTruthy d = true ∧
        ∀ r ∈ arr, matchAt r index group = true → identNodes d r index = .ok true) →
      ∀ res cnt d2, deleteGroupGo group index arr del = .ok (res, cnt, d2) →
        res = arr.filter (fun r => keepAt r index group) ∧
        cnt = (arr.filter (fun r => matchAt r index group)).length ∧
        d2 = ((arr.filter (fun r => matchAt r index group)).getLast?).elim del some := by
  intro arr
  induction arr with
  | nil =>
    intro del _ _ res cnt d2 h
    obtain ⟨h1, h2, h3⟩ : ([] : List Node) = res ∧ 0 = cnt ∧ del = d2 := by
      have := Except.ok.inj h
      refine ⟨congrArg (fun t => t.1) this, ?_, ?_⟩
      · exact congrArg (fun t => t.2.1) this
      · exact congrArg (fun t => t.2.2) this
    subst h1; subst h2; subst h3
    simp
  | cons r rest ih =>
    intro del Hall Hdel res cnt d2 h
    have HallRest : ∀ x ∈ rest, ∀ q ∈ rest, matchAt x index group = true →
        matchAt q index group = true → identNodes x q index = .ok true :=
      fun x hx q hq => Hall x (by simp [hx]) q (by simp [hq])
    unfold deleteGroupGo at h
    cases hz : zeroCharAtE r index with
    | error e =>
      cases e with
      | indexError =>
        rw [dgStep_of_skip group del hz] at h
        have hmB : matchAt r index group = false := by unfold matchAt; rw [hz]
        have hkB : keepAt r index group = false := by unfold keepAt; rw [hz]
        have HdelRest : ∀ d, del = some d → isTruthy d = true ∧
            ∀ x ∈ rest, matchAt x index group = true →
              identNodes d x index = .ok true :=
          fun d hd => ⟨(Hdel d hd).1, fun x hx => (Hdel d hd).2 x (by simp [hx])⟩
        obtain ⟨h1, h2, h3⟩ := ih del HallRest HdelRest res cnt d2 h
        refine ⟨?_, ?_, ?_⟩
        · rw [List.filter_cons_of_neg (by simp [hkB])]; exact h1
        · rw [List.filter_cons_of_neg (by simp [hmB])]; exact h2
        · rw [List.filter_cons_of_neg (by simp [hmB])]; exact h3
      | typeError =>
        rw [show dgStep group index del r = .error .typeError by
          unfold dgStep; rw [hz]] at h
        simp at h
      | valueError =>
        rw [show dgStep group index del r = .error .valueError by
          unfold dgStep; rw [hz]] at h
        simp at h
      | fuelError =>
        rw [show dgStep group index del r = .error .fuelError by
          unfold dgStep; rw [hz]] at h
        simp at h
    | ok c =>
      by_cases hc : group.contains c = true
      · -- the rule matches the group: it is removed
        have hmB : matchAt r index group = true := by unfold matchAt; rw [hz]; exact hc
        have hkB : keepAt r index group = false := by
          unfold keepAt
          rw [hz]
          show (!(group.contains c)) = false
          rw [hc]
          rfl
        have hstep : dgStep group index del r = .ok .remove := by
          cases del with
          | none => exact dgStep_of_remove_none group hz hc
          | some d =>
            obtain ⟨hd1, hd2⟩ := Hdel d rfl
            exact dgStep_of_remove_some group hz hc hd1 (hd2 r (by simp) hmB)
        rw [hstep] at h
        cases hrec : deleteGroupGo group index rest (some r) with
        | error e => rw [hrec] at h; simp at h
        | ok t =>
          obtain ⟨res2, cnt2, d3⟩ := t
          rw [hrec] at h
          obtain ⟨h1, h2, h3⟩ : res2 = res ∧ cnt2 + 1 = cnt ∧ d3 = d2 := by
            have := Except.ok.inj h
            exact ⟨congrArg (fun t => t.1) this, congrArg (fun t => t.2.1) this,
              congrArg (fun t => t.2.2) this⟩
          have HdelNew : ∀ d, (some r : Option Node) = some d → isTruthy d = true ∧
              ∀ x ∈ rest, matchAt x index group = true →
                identNodes d x index = .ok true := by
            intro d hd
            obtain rfl : r = d := Option.some.inj hd
            exact ⟨matchAt_isTruthy r index group hmB,
              fun x hx hmx => Hall r (by simp) x (by simp [hx]) hmB hmx⟩
          obtain ⟨g1, g2, g3⟩ := ih (some r) HallRest HdelNew res2 cnt2 d3 hrec
          refine ⟨?_, ?_, ?_⟩
          · rw [List.filter_cons_of_neg (by simp [hkB])]
            rw [← h1]; exact g1
          · rw [List.filter_cons_of_pos (by simp [hmB])]
            rw [← h2, g2]
            simp
          · rw [List.filter_cons_of_pos (by simp [hmB])]
            rw [← h3, g3]
            rw [optElim_getLast_cons]
      · -- the rule does not match: it is kept
        have hcf : group.contains c = false := by
          cases hcc : group.contains c
          · rfl
          · exact absurd hcc hc
        have hmB : matchAt r index group = false := by
          unfold matchAt; rw [hz]; exact hcf
        have hkB : keepAt r index group = true := by
          unfold keepAt
          rw [hz]
          show (!(group.contains c)) = true
          rw [hcf]
          rfl
        rw [dgStep_of_keep group del hz hcf] at h
        cases hrec : deleteGroupGo group index rest del with
        | error e => rw [hrec] at h; simp at h
        | ok t =>
          obtain ⟨res2, cnt2, d3⟩ := t
          rw [hrec] at h
          obtain ⟨h1, h2, h3⟩ : r :: res2 = res ∧ cnt2 = cnt ∧ d3 = d2 := by
            have := Except.ok.inj h
            exact ⟨congrArg (fun t => t.1) this, congrArg (fun t => t.2.1) this,
              congrArg (fun t => t.2.2) this⟩
          have HdelRest : ∀ d, del = some d → isTruthy d = true ∧
              ∀ x ∈ rest, matchAt x index group = true →
                identNodes d x index = .ok true :=
            fun d hd => ⟨(Hdel d hd).1, fun x hx => (Hdel d hd).2 x (by simp [hx])⟩
          obtain ⟨g1, g2, g3⟩ := ih del HallRest HdelRest res2 cnt2 d3 hrec
          refine ⟨?_, ?_, ?_⟩
          · rw [List.filter_cons_of_pos (by simp [hkB])]
            rw [← h1, g1]
          · rw [List.filter_cons_of_neg (by simp [hmB])]
            rw [← h2]; exact g2
          · rw [List.filter_cons_of_neg (by simp [hmB])]
            rw [← h3]; exact g3

/-- `mapExc` success means pointwise success, in order. -/
theorem mapExc_forall2 (f : α → Except Exc β) :
    ∀ (l : List α) (bs : List β), mapExc f l = .ok bs →
      List.Forall₂ (fun a b => f a = .ok b) l bs := by
  intro l
  induction l with
  | nil =>
    intro bs h
    have h2 : (Except.ok ([] : List β) : Except Exc (List β)) = .ok bs := h
    obtain rfl : ([] : List β) = bs := Except.ok.inj h2
    exact List.Forall₂.nil
  | cons a as ih =>
    intro bs h
    unfold mapExc at h
    cases hf : f a with
    | error e => rw [hf] at h; simp at h
    | ok b =>
      rw [hf] at h
      cases hrec : mapExc f as with
      | error e => rw [hrec] at h; simp at h
      | ok bs2 =>
        rw [hrec] at h
        obtain rfl : b :: bs2 = bs := Except.ok.inj h
        exact List.Forall₂.cons hf (ih bs2 hrec)

/-- Claim C6 (amended): for a `(group, position)` pass, among the models
whose zero-suffix character at the position belongs to the group, only those
structurally identical (in the source's `_rulesAreIdentical` sense, ignoring
the substituted position) to the previously removed one are removed; when
all matching models are pairwise identical — the claim's situation — exactly
the matching models leave the working set, every cleanly-evaluating
non-matching model stays, the removal counter equals the number of matching
models, the representative is the last matching model, and the extended
output gains exactly one substituted model per letter of the group. -/
theorem C6_group_removal (array : List Node) (group : List Char) (index : Nat)
    (Hall : ∀ r ∈ array, ∀ q ∈ array, matchAt r index group = true →
      matchAt q index group = true → identNodes r q index = .ok true) :
    (∀ res cnt del, deleteGroup array group index = .ok (res, cnt, del) →
      res = array.filter (fun r => keepAt r index group) ∧
      cnt = (array.filter (fun r => matchAt r index group)).length ∧
      del = (array.filter (fun r => matchAt r index group)).getLast?) ∧
    (∀ (e : Node) (gs : List Node), generalizeRule e index group = .ok gs →
      List.Forall₂ (fun letter g => putRecursively letter index e = .ok g) group gs) := by
  constructor
  · intro res cnt del h
    obtain ⟨h1, h2, h3⟩ :=
      deleteGroupGo_spec group index array none Hall (by simp) res cnt del h
    refine ⟨h1, h2, ?_⟩
    rw [h3]
    cases (array.filter (fun r => matchAt r index group)).getLast? <;> rfl
  · intro e gs h
    exact mapExc_forall2 _ group gs h

/-- Witness for C6: a two-model working set where the matching model is
removed, the non-matching model is kept, and generalization produces one
model per letter. -/
theorem C6_group_removal_witness :
    ([Node.branch [.suffix "a"], Node.branch [.suffix "pq"]].filter
        (fun r => keepAt r 0 ['a', 'b']) = [Node.branch [.suffix "pq"]] ∧
      1 = ([Node.branch [.suffix "a"], Node.branch [.suffix "pq"]].filter
        (fun r => matchAt r 0 ['a', 'b'])).length) ∧
    List.Forall₂
      (fun letter g => putRecursively letter 0 (Node.branch [.suffix "a"]) = .ok g)
      ['a', 'b'] [Node.branch [.suffix "a"], Node.branch [.suffix "b"]] := by
  have Hall : ∀ r ∈ [Node.branch [.suffix "a"], Node.branch [.suffix "pq"]],
      ∀ q ∈ [Node.branch [.suffix "a"], Node.branch [.suffix "pq"]],
      matchAt r 0 ['a', 'b'] = true → matchAt q 0 ['a', 'b'] = true →
      identNodes r q 0 = .ok true := by
    intro r hr q hq hmr hmq
    rcases List.mem_cons.mp hr with rfl | hr2
    · rcases List.mem_cons.mp hq with rfl | hq2
      · rfl
      · simp only [List.mem_singleton] at hq2
        subst hq2
        exact absurd hmq (by decide)
    · simp only [List.mem_singleton] at hr2
      subst hr2
      exact absurd hmr (by decide)
  constructor
  · have := (C6_group_removal
      [Node.branch [.suffix "a"], Node.branch [.suffix "pq"]] ['a', 'b'] 0 Hall).1
      [Node.branch [.suffix "pq"]] 1 (some (Node.branch [.suffix "a"])) rfl
    exact ⟨this.1.symm, this.2.1⟩
  · exact (C6_group_removal
      [Node.branch [.suffix "a"], Node.branch [.suffix "pq"]] ['a', 'b'] 0 Hall).2
      (Node.branch [.suffix "a"])
      [Node.branch [.suffix "a"], Node.branch [.suffix "b"]] rfl

/-- Counterexample for C6 as stated: both models match the group at
position 0 and the pass meets the evidence threshold (counter 1, group size
2, threshold one half), yet the second matching model — not structurally
identical to the first — stays in the working set, all the way into the
final generalized output. -/
theorem C6_counterexample :
    zeroCharAtE (.branch [.suffix "a", .suffix "zq"]) 0 = .ok 'a' ∧
    ['a', 'b'].contains 'a' = true ∧
    ¬(1 * 2 < 2 * 1) ∧
    deleteGroup
      [.branch [.suffix "a", .suffix "zp"], .branch [.suffix "a", .suffix "zq"]]
      ['a', 'b'] 0 =
      .ok ([.branch [.suffix "a", .suffix "zq"]], 1,
        some (.branch [.suffix "a", .suffix "zp"])) ∧
    generalizeModel
      [.branch [.suffix "a", .suffix "zp"], .branch [.suffix "a", .suffix "zq"]]
      [['a', 'b']] 1 2 =
      .ok [.branch [.suffix "a", .suffix "zq"],
        .branch [.branch [.suffix "a", .suffix "ap"],
          .branch [.suffix "b", .suffix "bp"]]] :=
  ⟨rfl, rfl, by decide, rfl, rfl⟩

/-! ## Claim C9 — a store model for the Generalizer

The value-level embedding above cannot express Python's in-place mutation,
so the frame claim is settled over an explicit store: addresses are indices
into a heap of Python objects, allocation appends, and `_putRecursively`'s
item assignments update list cells in place.  `deepcopy` is modelled as a
structural copy into fresh cells (the library call additionally memoizes
shared substructure; both variants allocate only fresh cells and never write
an existing one, which is all the frame property observes).  All recursion
over the (possibly cyclic) object graph is fuel-bounded; exhausting the fuel
is reported as `fuelError`, mirroring Python's `RecursionError` on cyclic
inputs. -/

/-- A Python object: an (immutable) string, `None`, or a list object whose
cells hold addresses of the element objects. -/
inductive PyVal where
  | strv (s : String) : PyVal
  | nonev : PyVal
  | listv (elems : List Nat) : PyVal
deriving DecidableEq, Repr

/-- The store: address `i` denotes `h[i]?`; allocation appends. -/
abbrev Heap := List PyVal

mutual

/-- Load the structural value rooted at an address. -/
def loadV (h : Heap) : Nat → Nat → Option Node
  | 0, _ => none
  | fuel + 1, a =>
    match h[a]? with
    | some (.strv s) => some (.suffix s)
    | some .nonev => some .absent
    | some (.listv es) => (loadL h fuel es).map Node.branch
    | none => none

/-- Load every element of a list object. -/
def loadL (h : Heap) : Nat → List Nat → Option (List Node)
  | _, [] => some []
  | 0, _ :: _ => none
  | fuel + 1, e :: rest =>
    match loadV h fuel e with
    | none => none
    | some n => (loadL h fuel rest).map (n :: ·)

end

/-- Load with an explicit exception (`fuelError` for a cyclic or dangling
graph, where the Python original would hit `RecursionError`). -/
def loadE (h : Heap) (fuel a : Nat) : Except Exc Node :=
  match loadV h fuel a with
  | some n => .ok n
  | none => .error .fuelError

mutual

/-- `copy.deepcopy`: structurally copy the object at `a` into fresh cells,
returning the extended heap and the copy's address. -/
def copyV (h : Heap) : Nat → Nat → Except Exc (Heap × Nat)
  | 0, _ => .error .fuelError
  | fuel + 1, a =>
    match h[a]? with
    | some (.strv s) => .ok (h ++ [.strv s], h.length)
    | some .nonev => .ok (h ++ [.nonev], h.length)
    | some (.listv es) =>
      match copyL h fuel es with
      | .error e => .error e
      | .ok (h2, addrs) => .ok (h2 ++ [.listv addrs], h2.length)
    | none => .error .fuelError

/-- Copy every element of a list object, threading the heap. -/
def copyL (h : Heap) : Nat → List Nat → Except Exc (Heap × List Nat)
  | _, [] => .ok (h, [])
  | 0, _ :: _ => .error .fuelError
  | fuel + 1, e :: rest =>
    match copyV h fuel e with
    | .error er => .error er
    | .ok (h2, a2) =>
      match copyL h2 fuel rest with
      | .error er => .error er
      | .ok (h3, as) => .ok (h3, a2 :: as)

end

mutual

/-- `_putRecursively` on the store: for a list object walk its element
cells; a string leaf is replaced by a freshly allocated substituted and
normalized string (the in-place `array[i] = ...`); a nested list is
processed recursively, its re-assignment storing the same object back; a
string (nonempty) or `None` argument raises `TypeError`. -/
def putRecVH (l : Char) (index : Nat) : Nat → Heap → Nat → Except Exc Heap
  | 0, _, _ => .error .fuelError
  | fuel + 1, h, a =>
    match h[a]? with
    | some (.strv s) => if s.data.isEmpty then .ok h else .error .typeError
    | some .nonev => .error .typeError
    | some (.listv es) => putRecLH l index fuel h a 0 es
    | none => .error .fuelError

/-- The element loop of `_putRecursively`: position `i` of the list object
at `a` is updated when the element is a string (only position `i` changes at
step `i`, so iterating the entry snapshot agrees with Python's live
iteration whenever the recursion terminates). -/
def putRecLH (l : Char) (index : Nat) : Nat → Heap → Nat → Nat → List Nat → Except Exc Heap
  | _, h, _, _, [] => .ok h
  | 0, _, _, _, _ :: _ => .error .fuelError
  | fuel + 1, h, a, i, e :: rest =>
    match h[e]? with
    | some (.strv s) =>
      match (h ++ [PyVal.strv (fitOrthography (substAt s index l))])[a]? with
      | some (.listv cur) =>
        putRecLH l index fuel
          ((h ++ [PyVal.strv (fitOrthography (substAt s index l))]).set a
            (.listv (cur.set i h.length)))
          a (i + 1) rest
      | _ => .error .typeError
    | some (.listv _) =>
      match putRecVH l index fuel h e with
      | .error er => .error er
      | .ok h2 => putRecLH l index fuel h2 a (i + 1) rest
    | some .nonev => .error .typeError
    | none => .error .fuelError

end

/-- `_generalize` on the store: per letter of the group, deepcopy the
representative rule and substitute the letter in place on the copy. -/
def generalizeRuleH (index : Nat) (fuel : Nat) :
    Heap → Nat → List Char → Except Exc (Heap × List Nat)
  | h, _, [] => .ok (h, [])
  | h, ruleAddr, letter :: rest =>
    match copyV h fuel ruleAddr with
    | .error er => .error er
    | .ok (h2, c) =>
      match putRecVH letter index fuel h2 c with
      | .error er => .error er
      | .ok h3 =>
        match generalizeRuleH index fuel h3 ruleAddr rest with
        | .error er => .error er
        | .ok (h4, addrs) => .ok (h4, c :: addrs)

/-- `_deleteGroup`'s loop body on the store: load the rule (and the current
`deleted` rule) and decide exactly as the value-level `dgStep`. -/
def dgStepH (h : Heap) (fuel : Nat) (group : List Char) (index : Nat)
    (del : Option Nat) (a : Nat) : Except Exc DgOut :=
  match loadE h fuel a with
  | .error er => .error er
  | .ok n =>
    match del with
    | none => dgStep group index none n
    | some d =>
      match loadE h fuel d with
      | .error er => .error er
      | .ok dn => dgStep group index (some dn) n

/-- `_deleteGroup`'s loop on rule addresses (reads only). -/
def deleteGroupGoH (h : Heap) (fuel : Nat) (group : List Char) (index : Nat) :
    List Nat → Option Nat → Except Exc (List Nat × Nat × Option Nat)
  | [], del => .ok ([], 0, del)
  | a :: rest, del =>
    match dgStepH h fuel group index del a with
    | .error e => .error e
    | .ok .keep =>
      match deleteGroupGoH h fuel group index rest del with
      | .error e => .error e
      | .ok (res, c, d) => .ok (a :: res, c, d)
    | .ok .remove =>
      match deleteGroupGoH h fuel group index rest (some a) with
      | .error e => .error e
      | .ok (res, c, d) => .ok (res, c + 1, d)
    | .ok .skip => deleteGroupGoH h fuel group index rest del

/-- `_deleteGroup` on the store. -/
def deleteGroupH (h : Heap) (fuel : Nat) (addrs : List Nat)
    (group : List Char) (index : Nat) : Except Exc (List Nat × Nat × Option Nat) :=
  deleteGroupGoH h fuel group index addrs none

/-- One `(group, index)` pass of `generalizeModel` on the store. -/
def gmPassH (fuel : Nat) (group : List Char) (num den : Nat) (index : Nat)
    (st : Heap × List Nat × List (List Nat)) :
    Except Exc (Heap × List Nat × List (List Nat)) :=
  match deleteGroupH st.1 fuel st.2.1 group index with
  | .error e => .error e
  | .ok (reduced, counter, element) =>
    if counter * den < group.length * num then .ok st
    else
      match element with
      | none => .ok st
      | some e =>
        match loadE st.1 fuel e with
        | .error er => .error er
        | .ok en =>
          if isTruthy en then
            match generalizeRuleH index fuel st.1 e group with
            | .error er => .error er
            | .ok (h2, gaddrs) => .ok (h2, reduced, st.2.2 ++ [gaddrs])
          else .ok st

/-- `generalizeModel` on the store: compute the zero-suffix lengths, run the
double loop, and return the final heap with the remaining rule addresses and
the extended groups. -/
def generalizeModelH (h : Heap) (fuel : Nat) (model : List Nat)
    (groups : List (List Char)) (num den : Nat) :
    Except Exc (Heap × List Nat × List (List Nat)) :=
  match mapExc (fun a =>
      match loadE h fuel a with
      | .error e => .error e
      | .ok n => lenZeroE n) model with
  | .error e => .error e
  | .ok [] => .error .valueError
  | .ok (n :: ns) =>
    foldExc
      (fun st group =>
        foldExc (fun st2 index => gmPassH fuel group num den index st2) st
          (List.range (ns.foldl Nat.max n + 1)))
      (h, model, ([] : List (List Nat))) groups

/-- The cells below `N` agree between two heaps. -/
def Agrees (N : Nat) (h h2 : Heap) : Prop := ∀ i, i < N → h2[i]? = h[i]?

/-- Every list cell at an address `≥ N` points only at addresses `≥ N`. -/
def ClosedAbove (N : Nat) (h : Heap) : Prop :=
  ∀ (i : Nat), N ≤ i → ∀ (es : List Nat),
    h[i]? = some (PyVal.listv es) → ∀ e ∈ es, N ≤ e

/-- Every list cell points inside the heap. -/
def HeapClosed (h : Heap) : Prop :=
  ∀ (i : Nat) (es : List Nat),
    h[i]? = some (PyVal.listv es) → ∀ e ∈ es, e < h.length

theorem agrees_refl (N : Nat) (h : Heap) : Agrees N h h := fun _ _ => rfl

theorem agrees_trans {N : Nat} {h h2 h3 : Heap} (a1 : Agrees N h h2)
    (a2 : Agrees N h2 h3) : Agrees N h h3 :=
  fun i hi => (a2 i hi).trans (a1 i hi)

theorem agrees_append (N : Nat) (h ext : Heap) (hN : N ≤ h.length) :
    Agrees N h (h ++ ext) :=
  fun i hi => List.getElem?_append_left (by omega)

theorem agrees_set {N : Nat} (h : Heap) (a : Nat) (v : PyVal) (ha : N ≤ a) :
    Agrees N h (h.set a v) :=
  fun i hi => List.getElem?_set_ne (show a ≠ i by omega)

theorem closedAbove_of_ge (N : Nat) (h : Heap) (hN : h.length ≤ N) :
    ClosedAbove N h := by
  intro i hi es hes
  rw [List.getElem?_eq_none (by omega)] at hes
  exact absurd hes (by simp)

theorem closedAbove_append_atom {N : Nat} {h : Heap} (v : PyVal)
    (hv : ∀ es, v ≠ .listv es) (hc : ClosedAbove N h) :
    ClosedAbove N (h ++ [v]) := by
  intro i hi es hes e he
  by_cases hlen : i < h.length
  · rw [List.getElem?_append_left hlen] at hes
    exact hc i hi es hes e he
  · by_cases heq : i = h.length
    · subst heq
      rw [List.getElem?_concat_length] at hes
      exact absurd (Option.some.inj hes) (hv es)
    · rw [List.getElem?_eq_none (by simp; omega)] at hes
      exact absurd hes (by simp)

theorem closedAbove_append_list {N : Nat} {h : Heap} {es2 : List Nat}
    (hes2 : ∀ e ∈ es2, N ≤ e) (hc : ClosedAbove N h) :
    ClosedAbove N (h ++ [PyVal.listv es2]) := by
  intro i hi es hes e he
  by_cases hlen : i < h.length
  · rw [List.getElem?_append_left hlen] at hes
    exact hc i hi es hes e he
  · by_cases heq : i = h.length
    · subst heq
      rw [List.getElem?_concat_length] at hes
      obtain rfl : es2 = es := PyVal.listv.inj (Option.some.inj hes)
      exact hes2 e he
    · rw [List.getElem?_eq_none (by simp; omega)] at hes
      exact absurd hes (by simp)

theorem closedAbove_set_list {N : Nat} {h : Heap} {a : Nat} {es2 : List Nat}
    (ha : N ≤ a) (hes2 : ∀ e ∈ es2, N ≤ e) (hc : ClosedAbove N h) :
    ClosedAbove N (h.set a (PyVal.listv es2)) := by
  intro i hi es hes e he
  by_cases heq : i = a
  · subst heq
    by_cases hlen : i < h.length
    · rw [List.getElem?_set_eq_of_lt _ hlen] at hes
      obtain rfl : es2 = es := PyVal.listv.inj (Option.some.inj hes)
      exact hes2 e he
    · rw [show h.set i (PyVal.listv es2) = h from
        List.set_eq_of_length_le (by omega)] at hes
      exact hc i hi es hes e he
  · rw [List.getElem?_set_ne (show a ≠ i from fun hcon => heq hcon.symm)] at hes
    exact hc i hi es hes e he

/-- `deepcopy` only appends: the original heap is a prefix of the result,
the copy lives entirely in the fresh region, and region-closure above any
`N ≤ len h` is preserved. -/
theorem copy_spec : ∀ fuel : Nat,
    (∀ (h : Heap) (a : Nat) (h2 : Heap) (c : Nat), copyV h fuel a = .ok (h2, c) →
      (∃ ext, h2 = h ++ ext) ∧ h.length ≤ c ∧ c < h2.length ∧
      (∀ N, N ≤ h.length → ClosedAbove N h → ClosedAbove N h2)) ∧
    (∀ (h : Heap) (es : List Nat) (h2 : Heap) (cs : List Nat),
      copyL h fuel es = .ok (h2, cs) →
      (∃ ext, h2 = h ++ ext) ∧ (∀ c ∈ cs, h.length ≤ c ∧ c < h2.length) ∧
      (∀ N, N ≤ h.length → ClosedAbove N h → ClosedAbove N h2)) := by
  intro fuel
  induction fuel with
  | zero =>
    constructor
    · intro h a h2 c hcp
      simp [copyV] at hcp
    · intro h es h2 cs hcp
      cases es with
      | nil =>
        obtain ⟨rfl, rfl⟩ : h = h2 ∧ [] = cs := by
          have := Except.ok.inj hcp
          exact ⟨congrArg Prod.fst this, congrArg Prod.snd this⟩
        exact ⟨⟨[], by simp⟩, by simp, fun N _ hc => hc⟩
      | cons e rest => simp [copyL] at hcp
  | succ fuel ih =>
    constructor
    · intro h a h2 c hcp
      unfold copyV at hcp
      cases hv : h[a]? with
      | none => rw [hv] at hcp; simp at hcp
      | some v =>
        rw [hv] at hcp
        cases v with
        | strv s =>
          obtain ⟨rfl, rfl⟩ : h ++ [PyVal.strv s] = h2 ∧ h.length = c := by
            have := Except.ok.inj hcp
            exact ⟨congrArg Prod.fst this, congrArg Prod.snd this⟩
          refine ⟨⟨[PyVal.strv s], rfl⟩, le_rfl, by simp, ?_⟩
          intro N hN hc
          exact closedAbove_append_atom _ (by simp) hc
        | nonev =>
          obtain ⟨rfl, rfl⟩ : h ++ [PyVal.nonev] = h2 ∧ h.length = c := by
            have := Except.ok.inj hcp
            exact ⟨congrArg Prod.fst this, congrArg Prod.snd this⟩
          refine ⟨⟨[PyVal.nonev], rfl⟩, le_rfl, by simp, ?_⟩
          intro N hN hc
          exact closedAbove_append_atom _ (by simp) hc
        | listv es =>
          have hcp2 : (match copyL h fuel es with
              | Except.error e => (Except.error e : Except Exc (Heap × Nat))
              | Except.ok (h3, addrs) =>
                Except.ok (h3 ++ [PyVal.listv addrs], h3.length)) =
              Except.ok (h2, c) := hcp
          cases hcl : copyL h fuel es with
          | error er => rw [hcl] at hcp2; simp at hcp2
          | ok t =>
            obtain ⟨h3, addrs⟩ := t
            rw [hcl] at hcp2
            obtain ⟨rfl, rfl⟩ : h3 ++ [PyVal.listv addrs] = h2 ∧ h3.length = c := by
              have := Except.ok.inj hcp2
              exact ⟨congrArg Prod.fst this, congrArg Prod.snd this⟩
            obtain ⟨⟨ext3, hext3⟩, haddrs, hclo⟩ := ih.2 h es h3 addrs hcl
            refine ⟨⟨ext3 ++ [PyVal.listv addrs], by rw [hext3]; simp⟩, ?_, by simp, ?_⟩
            · rw [hext3]; simp
            · intro N hN hc
              refine closedAbove_append_list ?_ (hclo N hN hc)
              intro e he
              exact le_trans hN (haddrs e he).1
    · intro h es h2 cs hcp
      cases es with
      | nil =>
        obtain ⟨rfl, rfl⟩ : h = h2 ∧ [] = cs := by
          have := Except.ok.inj hcp
          exact ⟨congrArg Prod.fst this, congrArg Prod.snd this⟩
        exact ⟨⟨[], by simp⟩, by simp, fun N _ hc => hc⟩
      | cons e rest =>
        unfold copyL at hcp
        cases hcv : copyV h fuel e with
        | error er => rw [hcv] at hcp; simp at hcp
        | ok t =>
          obtain ⟨hA, a2⟩ := t
          rw [hcv] at hcp
          have hcp2 : (match copyL hA fuel rest with
              | Except.error e => (Except.error e : Except Exc (Heap × List Nat))
              | Except.ok (h3, as) => Except.ok (h3, a2 :: as)) =
              Except.ok (h2, cs) := hcp
          cases hcl : copyL hA fuel rest with
          | error er => rw [hcl] at hcp2; simp at hcp2
          | ok t2 =>
            obtain ⟨hB, as2⟩ := t2
            rw [hcl] at hcp2
            obtain ⟨rfl, rfl⟩ : hB = h2 ∧ a2 :: as2 = cs := by
              have := Except.ok.inj hcp2
              exact ⟨congrArg Prod.fst this, congrArg Prod.snd this⟩
            obtain ⟨⟨extA, hextA⟩, ha2le, ha2lt, hcloA⟩ := ih.1 h e hA a2 hcv
            obtain ⟨⟨extB, hextB⟩, has2, hcloB⟩ := ih.2 hA rest hB as2 hcl
            have hlenA : h.length ≤ hA.length := by rw [hextA]; simp
            have hlenB : hA.length ≤ hB.length := by rw [hextB]; simp
            refine ⟨⟨extA ++ extB, by rw [hextB, hextA]; simp⟩, ?_, ?_⟩
            · intro c hc
              rcases List.mem_cons.mp hc with rfl | hc2
              · exact ⟨ha2le, by omega⟩
              · have := has2 c hc2
                omega
            · intro N hN hc
              exact hcloB N (by omega) (hcloA N hN hc)

/-- `_putRecursively` writes only at addresses `≥ N` (the clone's region):
cells below `N` are untouched, the heap only grows, and region-closure
above `N` is preserved. -/
theorem putRec_spec : ∀ fuel : Nat,
    (∀ (l : Char) (index : Nat) (h : Heap) (a : Nat) (h2 : Heap) (N : Nat),
      putRecVH l index fuel h a = .ok h2 → N ≤ a → N ≤ h.length →
      ClosedAbove N h →
      Agrees N h h2 ∧ h.length ≤ h2.length ∧ ClosedAbove N h2) ∧
    (∀ (l : Char) (index : Nat) (h : Heap) (a i : Nat) (es : List Nat)
      (h2 : Heap) (N : Nat),
      putRecLH l index fuel h a i es = .ok h2 → N ≤ a → N ≤ h.length →
      (∀ e ∈ es, N ≤ e) → ClosedAbove N h →
      Agrees N h h2 ∧ h.length ≤ h2.length ∧ ClosedAbove N h2) := by
  intro fuel
  induction fuel with
  | zero =>
    constructor
    · intro l index h a h2 N hp
      simp [putRecVH] at hp
    · intro l index h a i es h2 N hp
      cases es with
      | nil =>
        obtain rfl : h = h2 := Except.ok.inj hp
        exact fun _ _ _ hc => ⟨agrees_refl N h, le_rfl, hc⟩
      | cons e rest => simp [putRecLH] at hp
  | succ fuel ih =>
    constructor
    · intro l index h a h2 N hp ha hN hc
      unfold putRecVH at hp
      cases hv : h[a]? with
      | none => rw [hv] at hp; simp at hp
      | some v =>
        rw [hv] at hp
        cases v with
        | strv s =>
          have hp2 : (if s.data.isEmpty = true then (Except.ok h : Except Exc Heap)
              else .error .typeError) = .ok h2 := hp
          by_cases hse : s.data.isEmpty
          · rw [if_pos hse] at hp2
            obtain rfl : h = h2 := Except.ok.inj hp2
            exact ⟨agrees_refl N h, le_rfl, hc⟩
          · rw [if_neg hse] at hp2
            simp at hp2
        | nonev => simp at hp
        | listv es =>
          have hes : ∀ e ∈ es, N ≤ e := hc a ha es hv
          exact ih.2 l index h a 0 es h2 N hp ha hN hes hc
    · intro l index h a i es h2 N hp ha hN hes hc
      cases es with
      | nil =>
        obtain rfl : h = h2 := Except.ok.inj hp
        exact ⟨agrees_refl N h, le_rfl, hc⟩
      | cons e rest =>
        have hesrest : ∀ x ∈ rest, N ≤ x := fun x hx => hes x (by simp [hx])
        unfold putRecLH at hp
        cases hv : h[e]? with
        | none => rw [hv] at hp; simp at hp
        | some v =>
          rw [hv] at hp
          cases v with
          | nonev => simp at hp
          | strv s =>
            have hp2 : (match (h ++ [PyVal.strv (fitOrthography (substAt s index l))])[a]? with
                | some (PyVal.listv cur) =>
                  putRecLH l index fuel
                    ((h ++ [PyVal.strv (fitOrthography (substAt s index l))]).set a
                      (PyVal.listv (cur.set i h.length)))
                    a (i + 1) rest
                | _ => (Except.error Exc.typeError : Except Exc Heap)) = .ok h2 := hp
            have hcB : ClosedAbove N
                (h ++ [PyVal.strv (fitOrthography (substAt s index l))]) :=
              closedAbove_append_atom _ (by simp) hc
            cases hcur : (h ++ [PyVal.strv (fitOrthography (substAt s index l))])[a]? with
            | none => rw [hcur] at hp2; simp at hp2
            | some w =>
              rw [hcur] at hp2
              cases w with
              | strv t => simp at hp2
              | nonev => simp at hp2
              | listv cur =>
                have hcurN : ∀ x ∈ cur, N ≤ x := hcB a ha cur hcur
                have hsetN : ∀ x ∈ cur.set i h.length, N ≤ x := by
                  intro x hx
                  rcases List.mem_or_eq_of_mem_set hx with hx2 | rfl
                  · exact hcurN x hx2
                  · exact hN
                have hcC : ClosedAbove N
                    ((h ++ [PyVal.strv (fitOrthography (substAt s index l))]).set a
                      (PyVal.listv (cur.set i h.length))) :=
                  closedAbove_set_list ha hsetN hcB
                obtain ⟨g1, g2, g3⟩ :=
                  ih.2 l index
                    ((h ++ [PyVal.strv (fitOrthography (substAt s index l))]).set a
                      (PyVal.listv (cur.set i h.length)))
                    a (i + 1) rest h2 N hp2 ha
                    (by simp; omega) hesrest hcC
                refine ⟨?_, ?_, g3⟩
                · refine agrees_trans ?_ g1
                  refine agrees_trans (agrees_append N h _ hN) (agrees_set _ a _ ha)
                · simp at g2
                  omega
          | listv inner =>
            have hp2 : (match putRecVH l index fuel h e with
                | Except.error er => (Except.error er : Except Exc Heap)
                | Except.ok hB => putRecLH l index fuel hB a (i + 1) rest) =
                .ok h2 := hp
            cases hrec : putRecVH l index fuel h e with
            | error er => rw [hrec] at hp2; simp at hp2
            | ok hB =>
              rw [hrec] at hp2
              have heN : N ≤ e := hes e (by simp)
              obtain ⟨g1, g2, g3⟩ := ih.1 l index h e hB N hrec heN hN hc
              obtain ⟨k1, k2, k3⟩ :=
                ih.2 l index hB a (i + 1) rest h2 N hp2 ha (by omega) hesrest g3
              exact ⟨agrees_trans g1 k1, by omega, k3⟩

/-- `_generalize` on the store copies the representative and substitutes on
the copies only: the region below `N` is untouched. -/
theorem generalizeRuleH_spec (index fuel : Nat) :
    ∀ (letters : List Char) (h : Heap) (ruleAddr : Nat) (h4 : Heap)
      (addrs : List Nat) (N : Nat),
      generalizeRuleH index fuel h ruleAddr letters = .ok (h4, addrs) →
      N ≤ h.length → ClosedAbove N h →
      Agrees N h h4 ∧ h.length ≤ h4.length ∧ ClosedAbove N h4 := by
  intro letters
  induction letters with
  | nil =>
    intro h ruleAddr h4 addrs N hg hN hc
    obtain ⟨rfl, -⟩ : h = h4 ∧ [] = addrs := by
      have := Except.ok.inj hg
      exact ⟨congrArg Prod.fst this, congrArg Prod.snd this⟩
    exact ⟨agrees_refl N h, le_rfl, hc⟩
  | cons letter rest ih =>
    intro h ruleAddr h4 addrs N hg hN hc
    unfold generalizeRuleH at hg
    cases hcp : copyV h fuel ruleAddr with
    | error er => rw [hcp] at hg; simp at hg
    | ok t =>
      obtain ⟨hA, c⟩ := t
      rw [hcp] at hg
      have hg2 : (match putRecVH letter index fuel hA c with
          | Except.error er => (Except.error er : Except Exc (Heap × List Nat))
          | Except.ok h3 =>
            match generalizeRuleH index fuel h3 ruleAddr rest with
            | Except.error er => Except.error er
            | Except.ok (h4, addrs) => Except.ok (h4, c :: addrs)) =
          .ok (h4, addrs) := hg
      obtain ⟨⟨extA, hextA⟩, hcle, hclt, hcloA⟩ := (copy_spec fuel).1 h ruleAddr hA c hcp
      have hlenA : h.length ≤ hA.length := by rw [hextA]; simp
      cases hpr : putRecVH letter index fuel hA c with
      | error er => rw [hpr] at hg2; simp at hg2
      | ok hB =>
        rw [hpr] at hg2
        have hg3 : (match generalizeRuleH index fuel hB ruleAddr rest with
            | Except.error er => (Except.error er : Except Exc (Heap × List Nat))
            | Except.ok (hX, aX) => Except.ok (hX, c :: aX)) =
            .ok (h4, addrs) := hg2
        obtain ⟨p1, p2, p3⟩ := (putRec_spec fuel).1 letter index hA c hB N hpr
          (by omega) (by omega) (hcloA N hN hc)
        cases hrec : generalizeRuleH index fuel hB ruleAddr rest with
        | error er => rw [hrec] at hg3; simp at hg3
        | ok t2 =>
          obtain ⟨hC, addrs2⟩ := t2
          rw [hrec] at hg3
          obtain ⟨heq, -⟩ : hC = h4 ∧ c :: addrs2 = addrs := by
            have := Except.ok.inj hg3
            exact ⟨congrArg Prod.fst this, congrArg Prod.snd this⟩
          rw [← heq]
          obtain ⟨q1, q2, q3⟩ := ih hB ruleAddr hC addrs2 N hrec (by omega) p3
          refine ⟨?_, by omega, q3⟩
          exact agrees_trans (agrees_trans (by rw [hextA]; exact agrees_append N h extA hN) p1) q1

/-- One `(group, index)` pass touches no cell below `N`. -/
theorem gmPassH_spec (fuel : Nat) (group : List Char) (num den index : Nat)
    (st st2 : Heap × List Nat × List (List Nat)) (N : Nat)
    (hg : gmPassH fuel group num den index st = .ok st2)
    (hN : N ≤ st.1.length) (hc : ClosedAbove N st.1) :
    Agrees N st.1 st2.1 ∧ st.1.length ≤ st2.1.length ∧ ClosedAbove N st2.1 := by
  unfold gmPassH at hg
  split at hg
  · simp at hg
  · split at hg
    · obtain rfl : st = st2 := Except.ok.inj hg
      exact ⟨agrees_refl N st.1, le_rfl, hc⟩
    · split at hg
      · obtain rfl : st = st2 := Except.ok.inj hg
        exact ⟨agrees_refl N st.1, le_rfl, hc⟩
      next e hdel =>
        split at hg
        · simp at hg
        next en hld =>
          split at hg
          · split at hg
            · simp at hg
            next h2 gaddrs hgr =>
              have hst2 : st2.1 = h2 := (congrArg Prod.fst (Except.ok.inj hg)).symm
              rw [hst2]
              exact generalizeRuleH_spec index fuel group st.1 e h2 gaddrs N hgr hN hc
          · obtain rfl : st = st2 := Except.ok.inj hg
            exact ⟨agrees_refl N st.1, le_rfl, hc⟩

/-- Invariant preservation through `foldExc`. -/
theorem foldExc_inv {σ α : Type} (P : σ → Prop) (f : σ → α → Except Exc σ)
    (hstep : ∀ s a s2, P s → f s a = .ok s2 → P s2) :
    ∀ (l : List α) (s s2 : σ), P s → foldExc f s l = .ok s2 → P s2 := by
  intro l
  induction l with
  | nil =>
    intro s s2 hP h
    obtain rfl : s = s2 := Except.ok.inj h
    exact hP
  | cons a rest ih =>
    intro s s2 hP h
    unfold foldExc at h
    cases hf : f s a with
    | error e => rw [hf] at h; simp at h
    | ok sA =>
      rw [hf] at h
      exact ih sA s2 (hstep s a sA hP hf) h

/-- Two heaps agreeing on the original region yield identical loads from it,
when the original's cells point only inside it. -/
theorem load_agrees {h h2 : Heap} (hag : Agrees h.length h h2)
    (hcl : HeapClosed h) :
    ∀ fuel2 : Nat,
      (∀ a, a < h.length → loadV h2 fuel2 a = loadV h fuel2 a) ∧
      (∀ es : List Nat, (∀ e ∈ es, e < h.length) →
        loadL h2 fuel2 es = loadL h fuel2 es) := by
  intro fuel2
  induction fuel2 with
  | zero =>
    constructor
    · intro a _; rfl
    · intro es _; cases es <;> rfl
  | succ f ih =>
    constructor
    · intro a ha
      show loadV h2 (f + 1) a = loadV h (f + 1) a
      unfold loadV
      rw [hag a ha]
      cases hv : h[a]? with
      | none => rfl
      | some v =>
        cases v with
        | strv s => rfl
        | nonev => rfl
        | listv es =>
          have hes : ∀ e ∈ es, e < h.length := hcl a es hv
          show Option.map Node.branch (loadL h2 f es) =
            Option.map Node.branch (loadL h f es)
          rw [ih.2 es hes]
    · intro es hes
      cases es with
      | nil => rfl
      | cons e rest =>
        show loadL h2 (f + 1) (e :: rest) = loadL h (f + 1) (e :: rest)
        unfold loadL
        rw [ih.1 e (hes e (by simp))]
        cases hl : loadV h f e with
        | none => rfl
        | some n =>
          show Option.map (n :: ·) (loadL h2 f rest) =
            Option.map (n :: ·) (loadL h f rest)
          rw [ih.2 rest (fun x hx => hes x (by simp [hx]))]

/-- Claim C9: `generalizeModel` never mutates its input models — every cell
of the input store is bytewise identical after the call, the store only
grows, and (when the input object graph is closed) every input model loads
to exactly the structural value it had before: letter substitution happens
only on the freshly allocated deep copies. -/
theorem C9_no_input_mutation (h : Heap) (fuel num den : Nat)
    (model : List Nat) (groups : List (List Char)) (h2 : Heap)
    (model2 : List Nat) (ext : List (List Nat))
    (hgm : generalizeModelH h fuel model groups num den = .ok (h2, model2, ext)) :
    (∀ i, i < h.length → h2[i]? = h[i]?) ∧
    h.length ≤ h2.length ∧
    (HeapClosed h → ∀ fuel2 a : Nat, a < h.length →
      loadV h2 fuel2 a = loadV h fuel2 a) := by
  unfold generalizeModelH at hgm
  split at hgm
  · simp at hgm
  · simp at hgm
  next n ns hmap =>
    have hstep : ∀ (st : Heap × List Nat × List (List Nat)) (group : List Char)
        (st2 : Heap × List Nat × List (List Nat)),
        (Agrees h.length h st.1 ∧ h.length ≤ st.1.length ∧
          ClosedAbove h.length st.1) →
        foldExc (fun st2 index => gmPassH fuel group num den index st2) st
          (List.range (ns.foldl Nat.max n + 1)) = .ok st2 →
        Agrees h.length h st2.1 ∧ h.length ≤ st2.1.length ∧
          ClosedAbove h.length st2.1 := by
      intro st group st2 hPst hfold
      have hstep2 : ∀ (stA : Heap × List Nat × List (List Nat)) (index : Nat)
          (stB : Heap × List Nat × List (List Nat)),
          (Agrees h.length h stA.1 ∧ h.length ≤ stA.1.length ∧
            ClosedAbove h.length stA.1) →
          gmPassH fuel group num den index stA = .ok stB →
          Agrees h.length h stB.1 ∧ h.length ≤ stB.1.length ∧
            ClosedAbove h.length stB.1 := by
        intro stA index stB hPstA hpass
        obtain ⟨a1, a2, a3⟩ := gmPassH_spec fuel group num den index stA stB
          h.length hpass hPstA.2.1 hPstA.2.2
        exact ⟨agrees_trans hPstA.1 a1, le_trans hPstA.2.1 a2, a3⟩
      exact foldExc_inv _ _ hstep2 _ st st2 hPst hfold
    have hP := foldExc_inv _ _ hstep groups (h, model, []) (h2, model2, ext)
      ⟨agrees_refl _ h, le_rfl, closedAbove_of_ge _ h le_rfl⟩ hgm
    obtain ⟨g1, g2, g3⟩ := hP
    refine ⟨g1, g2, ?_⟩
    intro hcl fuel2 a ha
    exact (load_agrees g1 hcl fuel2).1 a ha

/-- Concrete input store for the C9 witness: one rule `["a", "zp"]` made of
cells 0 and 1, the rule list itself at address 2. -/
def heapW : Heap := [.strv "a", .strv "zp", .listv [0, 1]]

/-- The store after generalizing `heapW` over the group `a/b` with
threshold one half: the three input cells are untouched, all substitution
happened on freshly allocated copies. -/
def heapW2 : Heap :=
  [.strv "a", .strv "zp", .listv [0, 1],
   .strv "a", .strv "zp", .listv [6, 7], .strv "a", .strv "ap",
   .strv "a", .strv "zp", .listv [11, 12], .strv "b", .strv "bp"]

/-- Witness for C9: a concrete generalization run leaves every input cell
unchanged and loads the input rule to its old value. -/
theorem C9_no_input_mutation_witness :
    heapW2[0]? = heapW[0]? ∧ heapW2[1]? = heapW[1]? ∧ heapW2[2]? = heapW[2]? ∧
    heapW.length ≤ heapW2.length ∧
    loadV heapW2 5 2 = loadV heapW 5 2 := by
  have hrun : generalizeModelH heapW 10 [2] [['a', 'b']] 1 2 =
      .ok (heapW2, [], [[5, 10]]) := rfl
  have hth := C9_no_input_mutation heapW 10 1 2 [2] [['a', 'b']] heapW2 []
    [[5, 10]] hrun
  have hclosed : HeapClosed heapW := by
    intro i es hes e he
    by_cases h3 : i < 3
    · interval_cases i
      · simp [heapW] at hes
      · simp [heapW] at hes
      · have hes2 : es = [0, 1] := by
          have h2 : heapW[2]? = some (PyVal.listv [0, 1]) := rfl
          rw [h2] at hes
          exact (PyVal.listv.inj (Option.some.inj hes)).symm
        subst hes2
        have he2 : e = 0 ∨ e = 1 := by simpa using he
        rcases he2 with rfl | rfl <;> decide
    · rw [List.getElem?_eq_none (by show 3 ≤ i; omega)] at hes
      exact absurd hes (by simp)
  exact ⟨hth.1 0 (by decide), hth.1 1 (by decide), hth.1 2 (by decide),
    hth.2.1, hth.2.2 hclosed 5 2 (by decide)⟩

end Dclua
